import Mathlib

/-!
Verification development for the directory indexer / searcher (main.go).

The program walks a directory tree with `filepath.Walk`, samples up to 512
bytes of each regular file, infers a content type with
`http.DetectContentType`, serializes the records to `index.csv` with
`encoding/csv`, and answers substring queries over the `Name` column of
that table.

The embedding below models:
  * `http.DetectContentType` (net/http/sniff.go) over byte lists,
  * the `filepath.Walk` traversal with the program's walk callback,
  * the `encoding/csv` writer and reader (default configuration),
  * the program's `search` function over the table contents.

Bytes are modelled as `Nat` (values < 256 in practice; bit operations use
`Nat.land` which matches Go's byte `&` for such values).  Strings of the
table are modelled at the rune level (`List Char`); all delimiters involved
are ASCII, so UTF-8 byte positions and rune positions agree.
-/
set_option maxRecDepth 100000

namespace Indexer

abbrev Byte := Nat

/-- Whitespace bytes skipped by the sniffer (`sniffWS` in net/http/sniff.go). -/
def isSniffWS (b : Byte) : Bool :=
  b == 0x09 || b == 0x0A || b == 0x0C || b == 0x0D || b == 0x20

/-- ASCII bytes of a pattern string. -/
def asciiBytes (s : String) : List Byte :=
  s.data.map Char.toNat

/-- Compare a (case-insensitive on letters) HTML pattern against data, as
`htmlSig.match` does: an uppercase pattern letter matches the data byte with
bit 5 cleared.  Returns the data remaining after the pattern on success. -/
def htmlCmp : List Byte → List Byte → Option (List Byte)
  | [], ds => some ds
  | _ :: _, [] => none
  | p :: ps, d :: ds =>
    let db := if 0x41 ≤ p && p ≤ 0x5A then d &&& 0xDF else d
    if db == p then htmlCmp ps ds else none

/-- `htmlSig.match`: pattern then a tag-terminating byte (space or `>`). -/
def htmlMatch (pat data : List Byte) : Bool :=
  match htmlCmp pat data with
  | some (d :: _) => d == 0x20 || d == 0x3E
  | _ => false

/-- `maskedSig.match` with mask and pattern zipped together (the table only
contains signatures with `len(mask) = len(pat)`). -/
def maskedCmp : List (Byte × Byte) → List Byte → Bool
  | [], _ => true
  | _ :: _, [] => false
  | (m, p) :: mps, d :: ds => (d &&& m == p) && maskedCmp mps ds

/-- Big-endian 32-bit integer from the first four bytes. -/
def beUint32 (data : List Byte) : Nat :=
  match data with
  | b0 :: b1 :: b2 :: b3 :: _ => ((b0 * 256 + b1) * 256 + b2) * 256 + b3
  | _ => 0

/-- `mp4Sig.match` from net/http/sniff.go. -/
def mp4Match (data : List Byte) : Bool :=
  if data.length < 12 then false
  else
    let boxSize := beUint32 data
    if data.length < boxSize || boxSize % 4 != 0 then false
    else if (data.drop 4).take 4 != asciiBytes "ftyp" then false
    else
      ((List.range ((boxSize - 8) / 4)).map (fun i => 8 + 4 * i)).any
        (fun st => st != 12 && (data.drop st).take 3 == asciiBytes "mp4")

/-- A byte is "binary" for `textSig.match`. -/
def isBinaryByte (b : Byte) : Bool :=
  b ≤ 0x08 || b == 0x0B || (0x0E ≤ b && b ≤ 0x1A) || (0x1C ≤ b && b ≤ 0x1F)

/-- One sniffing signature of `sniffSignatures`. -/
inductive SniffSig where
  | html (pat : List Byte)
  | masked (skipWS : Bool) (mps : List (Byte × Byte)) (ct : String)
  | exact (pat : List Byte) (ct : String)
  | mp4
  | text

/-- The content type a signature would report when it matches. -/
def SniffSig.ctOf : SniffSig → String
  | .html _ => "text/html; charset=utf-8"
  | .masked _ _ ct => ct
  | .exact _ ct => ct
  | .mp4 => "video/mp4"
  | .text => "text/plain; charset=utf-8"

/-- `sig.match(data, firstNonWS)`: `dataWS` is `data[firstNonWS:]`. -/
def sigMatch (data dataWS : List Byte) : SniffSig → Bool
  | .html pat => htmlMatch pat dataWS
  | .masked skipWS mps _ => maskedCmp mps (if skipWS then dataWS else data)
  | .exact pat _ => pat.isPrefixOf data
  | .mp4 => mp4Match data
  | .text => dataWS.all (fun b => !isBinaryByte b)

/-- Mask/pattern pair list built from two equal-length byte lists. -/
def mp (mask pat : List Byte) : List (Byte × Byte) :=
  mask.zip pat

/-- The signature table `sniffSignatures` of net/http/sniff.go, in order. -/
def sniffSignatures : List SniffSig :=
  [ .html (asciiBytes "<!DOCTYPE HTML"),
    .html (asciiBytes "<HTML"),
    .html (asciiBytes "<HEAD"),
    .html (asciiBytes "<SCRIPT"),
    .html (asciiBytes "<IFRAME"),
    .html (asciiBytes "<H1"),
    .html (asciiBytes "<DIV"),
    .html (asciiBytes "<FONT"),
    .html (asciiBytes "<TABLE"),
    .html (asciiBytes "<A"),
    .html (asciiBytes "<STYLE"),
    .html (asciiBytes "<TITLE"),
    .html (asciiBytes "<B"),
    .html (asciiBytes "<BODY"),
    .html (asciiBytes "<BR"),
    .html (asciiBytes "<P"),
    .html (asciiBytes "<!--"),
    .masked true (mp [0xFF, 0xFF, 0xFF, 0xFF, 0xFF] (asciiBytes "<?xml"))
      "text/xml; charset=utf-8",
    .exact (asciiBytes "%PDF-") "application/pdf",
    .exact (asciiBytes "%!PS-Adobe-") "application/postscript",
    .masked false (mp [0xFF, 0xFF, 0x00, 0x00] [0xFE, 0xFF, 0x00, 0x00])
      "text/plain; charset=utf-16be",
    .masked false (mp [0xFF, 0xFF, 0x00, 0x00] [0xFF, 0xFE, 0x00, 0x00])
      "text/plain; charset=utf-16le",
    .masked false (mp [0xFF, 0xFF, 0xFF, 0x00] [0xEF, 0xBB, 0xBF, 0x00])
      "text/plain; charset=utf-8",
    .exact [0x00, 0x00, 0x01, 0x00] "image/x-icon",
    .exact [0x00, 0x00, 0x02, 0x00] "image/x-icon",
    .exact (asciiBytes "BM") "image/bmp",
    .exact (asciiBytes "GIF87a") "image/gif",
    .exact (asciiBytes "GIF89a") "image/gif",
    .masked false
      (mp [0xFF, 0xFF, 0xFF, 0xFF, 0x00, 0x00, 0x00, 0x00,
           0xFF, 0xFF, 0xFF, 0xFF, 0xFF, 0xFF]
          (asciiBytes "RIFF" ++ [0x00, 0x00, 0x00, 0x00] ++ asciiBytes "WEBPVP"))
      "image/webp",
    .exact ([0x89] ++ asciiBytes "PNG" ++ [0x0D, 0x0A, 0x1A, 0x0A]) "image/png",
    .exact [0xFF, 0xD8, 0xFF] "image/jpeg",
    .masked false (mp [0xFF, 0xFF, 0xFF, 0xFF] (asciiBytes ".snd")) "audio/basic",
    .masked false
      (mp [0xFF, 0xFF, 0xFF, 0xFF, 0x00, 0x00, 0x00, 0x00, 0xFF, 0xFF, 0xFF, 0xFF]
          (asciiBytes "FORM" ++ [0x00, 0x00, 0x00, 0x00] ++ asciiBytes "AIFF"))
      "audio/aiff",
    .masked false (mp [0xFF, 0xFF, 0xFF] (asciiBytes "ID3")) "audio/mpeg",
    .masked false (mp [0xFF, 0xFF, 0xFF, 0xFF, 0xFF] (asciiBytes "OggS" ++ [0x00]))
      "application/ogg",
    .masked false
      (mp [0xFF, 0xFF, 0xFF, 0xFF, 0xFF, 0xFF, 0xFF, 0xFF]
          (asciiBytes "MThd" ++ [0x00, 0x00, 0x00, 0x06]))
      "audio/midi",
    .masked false
      (mp [0xFF, 0xFF, 0xFF, 0xFF, 0x00, 0x00, 0x00, 0x00, 0xFF, 0xFF, 0xFF, 0xFF]
          (asciiBytes "RIFF" ++ [0x00, 0x00, 0x00, 0x00] ++ asciiBytes "AVI "))
      "video/avi",
    .masked false
      (mp [0xFF, 0xFF, 0xFF, 0xFF, 0x00, 0x00, 0x00, 0x00, 0xFF, 0xFF, 0xFF, 0xFF]
          (asciiBytes "RIFF" ++ [0x00, 0x00, 0x00, 0x00] ++ asciiBytes "WAVE"))
      "audio/wave",
    .mp4,
    .exact [0x1A, 0x45, 0xDF, 0xA3] "video/webm",
    .masked false
      (mp (List.replicate 34 0x00 ++ [0xFF, 0xFF])
          (List.replicate 34 0x00 ++ asciiBytes "LP"))
      "application/vnd.ms-fontobject",
    .exact [0x00, 0x01, 0x00, 0x00] "font/ttf",
    .exact (asciiBytes "OTTO") "font/otf",
    .exact (asciiBytes "ttcf") "font/collection",
    .exact (asciiBytes "wOFF") "font/woff",
    .exact (asciiBytes "wOF2") "font/woff2",
    .exact [0x1F, 0x8B, 0x08] "application/x-gzip",
    .exact (asciiBytes "PK" ++ [0x03, 0x04]) "application/zip",
    .exact (asciiBytes "Rar!" ++ [0x1A, 0x07, 0x00]) "application/x-rar-compressed",
    .exact (asciiBytes "Rar!" ++ [0x1A, 0x07, 0x01, 0x00]) "application/x-rar-compressed",
    .exact ([0x00] ++ asciiBytes "asm") "application/wasm",
    .text ]

/-- First matching signature's content type, if any. -/
def firstMatch (data dataWS : List Byte) : List SniffSig → Option String
  | [] => none
  | s :: ss => if sigMatch data dataWS s then some s.ctOf else firstMatch data dataWS ss

/-- `http.DetectContentType`: consider at most 512 bytes, try every signature
in order, fall back to `application/octet-stream`. -/
def detectContentType (data0 : List Byte) : String :=
  let data := data0.take 512
  let dataWS := data.dropWhile isSniffWS
  match firstMatch data dataWS sniffSignatures with
  | some ct => ct
  | none => "application/octet-stream"

/-! ## Filesystem model and traversal (main.go, `filepath.Walk` callback) -/
/-- One record of the index (struct `FileInfo` of main.go).  `Size` is the
metadata size in bytes (`info.Size()`, an `int64` that is non-negative for
regular files, modelled as `Nat`). -/
structure FileInfo where
  Name : String
  Size : Nat
  «Type» : String
  Path : String
deriving DecidableEq, Repr

/-- A filesystem tree.  `openOk` is whether `os.Open` succeeds on the file;
`listOk` is whether enumerating the directory succeeds.  Child lists are in
the (sorted) enumeration order used by `filepath.Walk`. -/
inductive FSEntry where
  | file (name : String) (content : List Byte) (openOk : Bool)
  | dir (name : String) (entries : List FSEntry) (listOk : Bool)

/-- Base name of an entry (`info.Name()`). -/
def FSEntry.name : FSEntry → String
  | .file n _ _ => n
  | .dir n _ _ => n

/-- Traversal-time failures surfaced by the walk callback. -/
inductive WalkError where
  | traversal (path : String)
  | fileOpen (path : String)
  | fileRead (path : String)
deriving DecidableEq, Repr

/-- `strings.HasPrefix(name, ".git")` (ASCII pattern, so byte- and
rune-level prefix agree). -/
def hasGitPre (name : String) : Bool :=
  (".git").data.isPrefixOf name.data

/-- The sample passed to `http.DetectContentType`: `buffer := make([]byte,
512)` is zero-initialized, a single `file.Read(buffer)` fills its first
`min(len(content), 512)` bytes and leaves the rest zero, and the whole
512-byte buffer is passed on unsliced. -/
def sampleOf (content : List Byte) : List Byte :=
  content.take 512 ++ List.replicate (512 - content.length) 0

/-- `file.Read(buffer)` on an empty file returns `(0, io.EOF)`, which the
walk callback treats as an error; on a non-empty regular file the single
read succeeds. -/
def readSample (path : String) (content : List Byte) : Except WalkError (List Byte) :=
  if content.isEmpty then .error (.fileRead path)
  else .ok (sampleOf content)

/-- The record appended for a visited regular file. -/
def mkRecord (path name : String) (content : List Byte) : FileInfo :=
  { Name := name
    Size := content.length
    «Type» := detectContentType (sampleOf content)
    Path := path }

/-- The walk callback applied to one file entry at `path`: skip `.git*`
names, then open and sample the file. -/
def visitFile (path name : String) (content : List Byte) (openOk : Bool) :
    Except WalkError (List FileInfo) :=
  if hasGitPre name then .ok []
  else if !openOk then .error (.fileOpen path)
  else do
    let _ ← readSample path content
    .ok [mkRecord path name content]

mutual

/-- `filepath.Walk`'s recursive `walk` on one entry rooted at `path`,
composed with the program's callback: directories are enumerated first
(an enumeration failure is handed to the callback, which returns it);
a `.git*` directory returns `filepath.SkipDir` (pruned, children never
visited); otherwise children are visited in order at `path ++ "/" ++ name`
(`filepath.Join`). -/
def walkEntry (path : String) : FSEntry → Except WalkError (List FileInfo)
  | .file name content openOk => visitFile path name content openOk
  | .dir name entries listOk =>
    if !listOk then .error (.traversal path)
    else if hasGitPre name then .ok []
    else walkList path entries

/-- Visit a directory's children left to right, aborting on the first
error. -/
def walkList (parent : String) : List FSEntry → Except WalkError (List FileInfo)
  | [] => .ok []
  | e :: rest => do
    let rs ← walkEntry (parent ++ "/" ++ e.name) e
    let rs2 ← walkList parent rest
    .ok (rs ++ rs2)

end

/-- `BuildIndex`: the traversal part of `main` on root `rootPath`. -/
def BuildIndex (rootPath : String) (root : FSEntry) : Except WalkError (List FileInfo) :=
  walkEntry rootPath root

/-! ## Table serialization (encoding/csv writer, default configuration) -/
/-- `strconv.FormatInt(n, 10)` for the non-negative sizes that occur:
decimal digits, most significant first.  The first argument is recursion
fuel; `n + 1` always exceeds the digit count, so `formatNat` below renders
every `n` completely. -/
def formatNatAux : Nat → Nat → List Char
  | 0, _ => []
  | fuel + 1, n =>
    if n < 10 then [Char.ofNat (48 + n)]
    else formatNatAux fuel (n / 10) ++ [Char.ofNat (48 + n % 10)]

/-- Decimal rendering of a size. -/
def formatNat (n : Nat) : String :=
  ⟨formatNatAux (n + 1) n⟩

/-- Go's `unicode.IsSpace` on the first rune (White_Space property). -/
def goIsSpace (c : Char) : Bool :=
  let n := c.toNat
  (0x09 ≤ n && n ≤ 0x0D) || n == 0x20 || n == 0x85 || n == 0xA0 ||
  n == 0x1680 || (0x2000 ≤ n && n ≤ 0x200A) || n == 0x2028 || n == 0x2029 ||
  n == 0x202F || n == 0x205F || n == 0x3000

/-- `csv.Writer.fieldNeedsQuotes` (Comma = `,`). -/
def fieldNeedsQuotes (f : String) : Bool :=
  if f = "" then false
  else if f = "\\." then true
  else if f.data.contains ',' || f.data.contains '"' ||
          f.data.contains '\r' || f.data.contains '\n' then true
  else goIsSpace (f.data.headD ' ')

/-- Body of a quoted field: `"` doubled, `\r` and `\n` written as-is
(`UseCRLF = false`). -/
def escapeQuoted : List Char → List Char
  | [] => []
  | '"' :: rest => '"' :: '"' :: escapeQuoted rest
  | c :: rest => c :: escapeQuoted rest

/-- One written field. -/
def writeField (f : String) : List Char :=
  if fieldNeedsQuotes f then '"' :: (escapeQuoted f.data ++ ['"']) else f.data

/-- The fields of one record joined by commas (the writer's field loop:
a comma before every field except the first). -/
def writeFields : List String → List Char
  | [] => []
  | [f] => writeField f
  | f :: rest => writeField f ++ ',' :: writeFields rest

/-- One written record: its fields, terminated by `\n` (`UseCRLF = false`). -/
def writeRecord (row : List String) : List Char :=
  writeFields row ++ ['\n']

/-- `csv.Writer` output for a whole table. -/
def csvWrite (rows : List (List String)) : List Char :=
  (rows.map writeRecord).flatten

/-- The fixed header row written by main. -/
def headerRow : List String :=
  ["Name", "Size", "Type", "Path"]

/-- The CSV row written for one record. -/
def recordRow (f : FileInfo) : List String :=
  [f.Name, formatNat f.Size, f.«Type», f.Path]

/-- The full `index.csv` contents written after a successful traversal. -/
def indexTable (files : List FileInfo) : String :=
  ⟨csvWrite (headerRow :: files.map recordRow)⟩

/-- The indexing run of `main`: walk, then (only on success) write the
table.  A traversal error reaches `log.Fatalw` before `os.Create`, so no
table — not even a partial one — is produced. -/
def runIndex (rootPath : String) (root : FSEntry) :
    Except WalkError (List FileInfo × String) :=
  match BuildIndex rootPath root with
  | .error e => .error e
  | .ok files => .ok (files, indexTable files)

/-- The table file produced by a run, when one is produced at all. -/
def persistedTable (r : Except WalkError (List FileInfo × String)) : Option String :=
  match r with
  | .error _ => none
  | .ok (_, t) => some t

/-! ## Table loading (encoding/csv reader, default configuration)

The reader model follows `csv.Reader.readRecord` with the default
configuration (`Comma = ','`, no comment, `LazyQuotes = false`,
`TrimLeadingSpace = false`, `FieldsPerRecord = 0`).  `readLine` rewrites a
final `\r\n` of every physical line to `\n`; since physical lines are split
at each `\n`, every `\r\n` of the input sits at the end of some physical
line, so this equals rewriting every `\r\n` of the whole input up front,
which is how `normalizeCRLF` below models it. -/
/-- Parse failures of the csv reader that `ReadAll` can surface. -/
inductive CsvError where
  | bareQuote
  | quote
  | fieldCount
deriving DecidableEq, Repr

/-- Rewrite every `\r\n` to `\n` (the `readLine` normalization). -/
def normalizeCRLF : List Char → List Char
  | [] => []
  | '\r' :: '\n' :: rest => '\n' :: normalizeCRLF rest
  | c :: rest => c :: normalizeCRLF rest

/-- What terminated a field. -/
inductive FieldEnd where
  | comma
  | newline
  | eof
deriving DecidableEq, Repr

/-- A non-quoted field: everything up to the next comma or end of line
(`readRecord`'s non-quoted branch). -/
def splitBare : List Char → List Char × FieldEnd × List Char
  | [] => ([], .eof, [])
  | c :: rest =>
    if c = ',' then ([], .comma, rest)
    else if c = '\n' then ([], .newline, rest)
    else
      let (f, e, r) := splitBare rest
      (c :: f, e, r)

/-- A quoted field after its opening quote (`readRecord`'s quoted branch):
`""` is an escaped quote, `",` ends the field, `"` followed by the line end
or EOF ends the record, any other byte after a closing quote is `ErrQuote`,
and EOF inside the field is an unterminated quote (`ErrQuote`). -/
def parseQuoted : List Char → Except CsvError (List Char × FieldEnd × List Char)
  | [] => .error .quote
  | '"' :: rest =>
    match rest with
    | '"' :: rest2 => do
      let (f, e, r) ← parseQuoted rest2
      .ok ('"' :: f, e, r)
    | ',' :: rest2 => .ok ([], .comma, rest2)
    | '\n' :: rest2 => .ok ([], .newline, rest2)
    | [] => .ok ([], .eof, [])
    | _ => .error .quote
  | c :: rest => do
    let (f, e, r) ← parseQuoted rest
    .ok (c :: f, e, r)

/-! Termination facts for the two well-founded parser definitions below:
they are stated here, before the theorem section, only because the
`decreasing_by` proofs of `parseRecord` and `readRows` need them. -/

theorem splitBare_rest_le (cs : List Char) :
    (splitBare cs).2.2.length ≤ cs.length := by
  induction cs with
  | nil => simp [splitBare]
  | cons c rest ih =>
    rcases hsb : splitBare rest with ⟨f', e', r'⟩
    rw [hsb] at ih
    simp only [splitBare, hsb]
    split
    · simp
    · split
      · simp
      · simpa using Nat.le_succ_of_le ih

theorem splitBare_comma_lt {cs f r : List Char}
    (h : splitBare cs = (f, FieldEnd.comma, r)) : r.length < cs.length := by
  induction cs generalizing f r with
  | nil => simp [splitBare] at h
  | cons c rest ih =>
    rcases hsb : splitBare rest with ⟨f', e', r'⟩
    simp only [splitBare, hsb] at h
    split at h
    · simp only [Prod.mk.injEq] at h
      obtain ⟨h1, h2, h3⟩ := h
      subst h3
      simp
    · split at h
      · simp at h
      · simp only [Prod.mk.injEq] at h
        obtain ⟨h1, h2, h3⟩ := h
        subst h2 h3
        exact Nat.lt_succ_of_lt (ih hsb)

theorem splitBare_newline_lt {cs f r : List Char}
    (h : splitBare cs = (f, FieldEnd.newline, r)) : r.length < cs.length := by
  induction cs generalizing f r with
  | nil => simp [splitBare] at h
  | cons c rest ih =>
    rcases hsb : splitBare rest with ⟨f', e', r'⟩
    simp only [splitBare, hsb] at h
    split at h
    · simp at h
    · split at h
      · simp only [Prod.mk.injEq] at h
        obtain ⟨h1, h2, h3⟩ := h
        subst h3
        simp
      · simp only [Prod.mk.injEq] at h
        obtain ⟨h1, h2, h3⟩ := h
        subst h2 h3
        exact Nat.lt_succ_of_lt (ih hsb)

theorem splitBare_eof_nil {cs f r : List Char}
    (h : splitBare cs = (f, FieldEnd.eof, r)) : r = [] := by
  induction cs generalizing f r with
  | nil => simp [splitBare] at h; exact h.2
  | cons c rest ih =>
    rcases hsb : splitBare rest with ⟨f', e', r'⟩
    simp only [splitBare, hsb] at h
    split at h
    · simp at h
    · split at h
      · simp at h
      · simp only [Prod.mk.injEq] at h
        obtain ⟨h1, h2, h3⟩ := h
        subst h2 h3
        exact ih hsb

theorem parseQuoted_rest_lt {cs f r : List Char} {e : FieldEnd}
    (h : parseQuoted cs = .ok (f, e, r)) : r.length < cs.length := by
  induction cs using parseQuoted.induct generalizing f e r with
  | case1 => simp [parseQuoted] at h
  | case2 rest2 ih =>
    simp only [parseQuoted, bind, Except.bind] at h
    split at h
    · exact Except.noConfusion h
    next t heq =>
      obtain ⟨f', e', r'⟩ := t
      simp only [Except.ok.injEq, Prod.mk.injEq] at h
      obtain ⟨h1, h2, h3⟩ := h
      subst h3
      have := ih heq
      simp only [List.length_cons]
      omega
  | case3 rest2 =>
    simp only [parseQuoted, Except.ok.injEq, Prod.mk.injEq] at h
    obtain ⟨h1, h2, h3⟩ := h
    subst h3
    simp only [List.length_cons]
    omega
  | case4 rest2 =>
    simp only [parseQuoted, Except.ok.injEq, Prod.mk.injEq] at h
    obtain ⟨h1, h2, h3⟩ := h
    subst h3
    simp only [List.length_cons]
    omega
  | case5 =>
    simp only [parseQuoted, Except.ok.injEq, Prod.mk.injEq] at h
    obtain ⟨h1, h2, h3⟩ := h
    subst h3
    simp
  | case6 rest h1 h2 h3 h4 =>
    simp only [parseQuoted] at h
    exact Except.noConfusion h
  | case7 c rest hc ih =>
    simp only [parseQuoted, bind, Except.bind] at h
    split at h
    · exact Except.noConfusion h
    next t heq =>
      obtain ⟨f', e', r'⟩ := t
      simp only [Except.ok.injEq, Prod.mk.injEq] at h
      obtain ⟨h1, h2, h3⟩ := h
      subst h3
      have := ih heq
      simp only [List.length_cons]
      omega

theorem parseQuoted_eof_nil {cs f r : List Char}
    (h : parseQuoted cs = .ok (f, FieldEnd.eof, r)) : r = [] := by
  induction cs using parseQuoted.induct generalizing f r with
  | case1 => simp [parseQuoted] at h
  | case2 rest2 ih =>
    simp only [parseQuoted, bind, Except.bind] at h
    split at h
    · exact Except.noConfusion h
    next t heq =>
      obtain ⟨f', e', r'⟩ := t
      simp only [Except.ok.injEq, Prod.mk.injEq] at h
      obtain ⟨h1, h2, h3⟩ := h
      subst h2 h3
      exact ih heq
  | case3 rest2 => simp [parseQuoted] at h
  | case4 rest2 => simp [parseQuoted] at h
  | case5 =>
    simp only [parseQuoted, Except.ok.injEq, Prod.mk.injEq] at h
    exact h.2.2.symm
  | case6 rest h1 h2 h3 h4 =>
    simp only [parseQuoted] at h
    exact Except.noConfusion h
  | case7 c rest hc ih =>
    simp only [parseQuoted, bind, Except.bind] at h
    split at h
    · exact Except.noConfusion h
    next t heq =>
      obtain ⟨f', e', r'⟩ := t
      simp only [Except.ok.injEq, Prod.mk.injEq] at h
      obtain ⟨h1, h2, h3⟩ := h
      subst h2 h3
      exact ih heq

/-- One record: fields separated by commas until the line or input ends
(`readRecord`'s field loop).  A quote inside a non-quoted field is
`ErrBareQuote` (`LazyQuotes = false`). -/
def parseRecord (cs : List Char) : Except CsvError (List String × List Char) :=
  match cs with
  | '"' :: rest =>
    match hq : parseQuoted rest with
    | .error e => .error e
    | .ok (f, .comma, r) =>
      match parseRecord r with
      | .error e => .error e
      | .ok (row, r2) => .ok (⟨f⟩ :: row, r2)
    | .ok (f, _, r) => .ok ([⟨f⟩], r)
  | cs2 =>
    match hb : splitBare cs2 with
    | (f, .comma, r) =>
      if f.contains '"' then .error .bareQuote
      else
        match parseRecord r with
        | .error e => .error e
        | .ok (row, r2) => .ok (⟨f⟩ :: row, r2)
    | (f, _, r) =>
      if f.contains '"' then .error .bareQuote
      else .ok ([⟨f⟩], r)
termination_by cs.length
decreasing_by
  · have h1 := parseQuoted_rest_lt hq
    simp only [List.length_cons]
    omega
  · exact splitBare_comma_lt hb

theorem parseRecord_rest_le {cs : List Char} {row : List String} {r : List Char}
    (h : parseRecord cs = .ok (row, r)) : r.length ≤ cs.length := by
  induction cs using parseRecord.induct generalizing row r with
  | case1 rest e hq =>
    simp only [parseRecord] at h
    split at h
    · exact Except.noConfusion h
    next f2 r2 heq =>
      rw [hq] at heq
      exact Except.noConfusion heq
    next f2 fst2 r2 hne heq =>
      rw [hq] at heq
      exact Except.noConfusion heq
  | case2 rest f r1 hq e hr ih =>
    simp only [parseRecord] at h
    split at h
    next e2 heq =>
      rw [hq] at heq
      exact Except.noConfusion heq
    next f2 r2 heq =>
      rw [hq] at heq
      simp only [Except.ok.injEq, Prod.mk.injEq] at heq
      obtain ⟨hf, _, hr2⟩ := heq
      subst hr2
      rw [hr] at h
      exact Except.noConfusion h
    next f2 fst2 r2 hne heq =>
      rw [hq] at heq
      simp only [Except.ok.injEq, Prod.mk.injEq] at heq
      exact (hne heq.2.1.symm).elim
  | case3 rest f r1 hq row1 r2 hr ih =>
    simp only [parseRecord] at h
    split at h
    next e2 heq =>
      rw [hq] at heq
      exact Except.noConfusion heq
    next f2 r3 heq =>
      rw [hq] at heq
      simp only [Except.ok.injEq, Prod.mk.injEq] at heq
      obtain ⟨hf, _, hr3⟩ := heq
      subst hr3
      rw [hr] at h
      simp only [Except.ok.injEq, Prod.mk.injEq] at h
      obtain ⟨h1, h2⟩ := h
      subst h2
      have ha := parseQuoted_rest_lt hq
      have hb := ih hr
      simp only [List.length_cons]
      omega
    next f2 fst2 r3 hne heq =>
      rw [hq] at heq
      simp only [Except.ok.injEq, Prod.mk.injEq] at heq
      exact (hne heq.2.1.symm).elim
  | case4 rest f fst r1 hfst hq =>
    simp only [parseRecord] at h
    split at h
    next e2 heq =>
      rw [hq] at heq
      exact Except.noConfusion heq
    next f2 r2 heq =>
      rw [hq] at heq
      simp only [Except.ok.injEq, Prod.mk.injEq] at heq
      exact (hfst heq.2.1).elim
    next f2 fst2 r2 hne heq =>
      rw [hq] at heq
      simp only [Except.ok.injEq, Prod.mk.injEq] at heq
      obtain ⟨hf, hfst2, hr2⟩ := heq
      subst hr2
      simp only [Except.ok.injEq, Prod.mk.injEq] at h
      obtain ⟨h1, h2⟩ := h
      subst h2
      have ha := parseQuoted_rest_lt hq
      simp only [List.length_cons]
      omega
  | case5 cs2 hq f r1 hb hct =>
    simp only [parseRecord] at h
    split at h
    next f2 r2 heq =>
      rw [hb] at heq
      simp only [Prod.mk.injEq] at heq
      obtain ⟨hf, _, hr2⟩ := heq
      subst hf hr2
      rw [if_pos hct] at h
      exact Except.noConfusion h
    next f2 fst2 r2 hne heq =>
      rw [hb] at heq
      simp only [Prod.mk.injEq] at heq
      exact (hne heq.2.1.symm).elim
  | case6 cs2 hq f r1 hb hct e hr ih =>
    simp only [parseRecord] at h
    split at h
    next f2 r2 heq =>
      rw [hb] at heq
      simp only [Prod.mk.injEq] at heq
      obtain ⟨hf, _, hr2⟩ := heq
      subst hf hr2
      rw [if_neg hct, hr] at h
      exact Except.noConfusion h
    next f2 fst2 r2 hne heq =>
      rw [hb] at heq
      simp only [Prod.mk.injEq] at heq
      exact (hne heq.2.1.symm).elim
  | case7 cs2 hq f r1 hb hct row1 r2 hr ih =>
    simp only [parseRecord] at h
    split at h
    next f2 r3 heq =>
      rw [hb] at heq
      simp only [Prod.mk.injEq] at heq
      obtain ⟨hf, _, hr3⟩ := heq
      subst hf hr3
      rw [if_neg hct, hr] at h
      simp only [Except.ok.injEq, Prod.mk.injEq] at h
      obtain ⟨h1, h2⟩ := h
      subst h2
      have ha := splitBare_comma_lt hb
      have hc := ih hr
      omega
    next f2 fst2 r3 hne heq =>
      rw [hb] at heq
      simp only [Prod.mk.injEq] at heq
      exact (hne heq.2.1.symm).elim
  | case8 cs2 hq f fst r1 hfst hb hct =>
    simp only [parseRecord] at h
    split at h
    next f2 r2 heq =>
      rw [hb] at heq
      simp only [Prod.mk.injEq] at heq
      exact (hfst heq.2.1).elim
    next f2 fst2 r2 hne heq =>
      rw [hb] at heq
      simp only [Prod.mk.injEq] at heq
      obtain ⟨hf, hfst2, hr2⟩ := heq
      subst hf hr2
      rw [if_pos hct] at h
      exact Except.noConfusion h
  | case9 cs2 hq f fst r1 hfst hb hct =>
    simp only [parseRecord] at h
    split at h
    next f2 r2 heq =>
      rw [hb] at heq
      simp only [Prod.mk.injEq] at heq
      exact (hfst heq.2.1).elim
    next f2 fst2 r2 hne heq =>
      rw [hb] at heq
      simp only [Prod.mk.injEq] at heq
      obtain ⟨hf, hfst2, hr2⟩ := heq
      subst hf hr2
      rw [if_neg hct] at h
      simp only [Except.ok.injEq, Prod.mk.injEq] at h
      obtain ⟨h1, h2⟩ := h
      subst h2
      have ha := splitBare_rest_le cs2
      rw [hb] at ha
      exact ha

theorem parseRecord_rest_lt {cs : List Char} {row : List String} {r : List Char}
    (hne : cs ≠ []) (h : parseRecord cs = .ok (row, r)) : r.length < cs.length := by
  rcases hcs : cs with _ | ⟨c, rest⟩
  · exact (hne hcs).elim
  subst hcs
  by_cases hc : c = '"'
  · subst hc
    simp only [parseRecord] at h
    split at h
    · exact Except.noConfusion h
    next f2 r2 heq =>
      have ha := parseQuoted_rest_lt heq
      rcases hr : parseRecord r2 with e2 | ⟨row2, r3⟩ <;> rw [hr] at h
      · exact Except.noConfusion h
      · simp only [Except.ok.injEq, Prod.mk.injEq] at h
        obtain ⟨h1, h2⟩ := h
        subst h2
        have hbnd := parseRecord_rest_le hr
        simp only [List.length_cons]
        omega
    next f2 fst2 r2 hne2 heq =>
      have ha := parseQuoted_rest_lt heq
      simp only [Except.ok.injEq, Prod.mk.injEq] at h
      obtain ⟨h1, h2⟩ := h
      subst h2
      simp only [List.length_cons]
      omega
  · rw [parseRecord.eq_def] at h
    split at h
    next rest2 heq =>
      injection heq with hch _
      exact (hc hch).elim
    next cs2 hnq =>
      split at h
      next f2 r2 heq2 =>
        split at h
        · exact Except.noConfusion h
        · rcases hr : parseRecord r2 with e2 | ⟨row2, r3⟩ <;> rw [hr] at h
          · exact Except.noConfusion h
          · simp only [Except.ok.injEq, Prod.mk.injEq] at h
            obtain ⟨h1, h2⟩ := h
            subst h2
            have ha := splitBare_comma_lt heq2
            have hbnd := parseRecord_rest_le hr
            omega
      next f2 fst2 r2 hne2 heq2 =>
        split at h
        · exact Except.noConfusion h
        · simp only [Except.ok.injEq, Prod.mk.injEq] at h
          obtain ⟨h1, h2⟩ := h
          subst h2
          cases fst2 with
          | comma => exact (hne2 rfl).elim
          | newline => exact splitBare_newline_lt heq2
          | eof =>
            have hz := splitBare_eof_nil heq2
            subst hz
            simp

/-- The record-reading loop of `Reader.ReadAll` over the normalized input:
skip empty lines, parse records one after another, stop at the first
error, and enforce the field count learned from the first record
(`FieldsPerRecord = 0`; a short or long record is `ErrFieldCount` and is
not itself kept). The loop accumulates the rows parsed before a failure;
`ReadAll` itself discards them on any error (see `csvReadAll`). -/
def readRows (expected : Option Nat) : List Char → List (List String) × Option CsvError
  | [] => ([], none)
  | c :: rest =>
    if c = '\n' then readRows expected rest
    else
      match hp : parseRecord (c :: rest) with
      | .error e => ([], some e)
      | .ok (row, r) =>
        match expected with
        | none =>
          let p := readRows (some row.length) r
          (row :: p.1, p.2)
        | some w =>
          if row.length = w then
            let p := readRows expected r
            (row :: p.1, p.2)
          else ([], some .fieldCount)
termination_by cs => cs.length
decreasing_by
  · simp
  · have := parseRecord_rest_lt (by simp) hp
    simpa using this
  · have := parseRecord_rest_lt (by simp) hp
    simpa using this

/-- `csv.NewReader(file).ReadAll()` on the whole table contents: on an
error-free read, the accumulated records and no error; on any failure,
`ReadAll` executes `return nil, err`, so the records parsed before the
failure are discarded and the result is the empty list with the error. -/
def csvReadAll (content : String) : List (List String) × Option CsvError :=
  match readRows none (normalizeCRLF content.data) with
  | (rows, none) => (rows, none)
  | (_, some e) => ([], some e)

/-! ## The search pass (function `search` of main.go) -/
/-- `strings.Contains(hay, needle)`: contiguous, case-sensitive substring
containment (rune-level containment coincides with Go's byte-level
containment on valid UTF-8). -/
def hasSub (hay needle : List Char) : Bool :=
  match hay with
  | [] => needle.isEmpty
  | _ :: t => needle.isPrefixOf hay || hasSub t needle

/-- The per-row test of the search loop: the row is non-empty (`len(line) >
0`) and its first column contains the query (`strings.Contains(line[0],
query)`). -/
def rowMatches (query : String) (row : List String) : Bool :=
  match row with
  | [] => false
  | f :: _ => hasSub f.data query.data

/-- The observable outcome of `search`: the empty-index warning path
(`len(lines) == 0`), the fatal read-failure path (`err != nil`), or the
list of matching rows printed. -/
inductive SearchOutcome where
  | emptyIndexWarning
  | readFailure (e : CsvError)
  | matches (out : List (List String))
deriving DecidableEq, Repr

/-- The `search` function of main.go applied to the contents of the index
file: read all rows; if no rows at all were parsed, warn that the index is
empty and stop; otherwise a read error is fatal; otherwise print every row
after the header whose first column contains the query, in row order. -/
def search (content query : String) : SearchOutcome :=
  let p := csvReadAll content
  if p.1.isEmpty then .emptyIndexWarning
  else
    match p.2 with
    | some e => .readFailure e
    | none => .matches ((p.1.drop 1).filter (rowMatches query))

/-- A table used in several concrete checks: a header row and nothing else. -/
def headerOnlyTable : String :=
  "Name,Size,Type,Path\n"

/-- A table whose header row is well formed but whose second row is
malformed (a stray byte after a closing quote): the reading loop parses one
row before failing. -/
def malformedTable : String :=
  "Name,Size,Type,Path\n\"ab\"x\n"

/-! ## Round trip: normalization facts -/
/-- The two-character sequence CR LF occurs nowhere in the list. -/
def noCRLF : List Char → Bool
  | [] => true
  | '\r' :: '\n' :: _ => false
  | _ :: rest => noCRLF rest

/-- A concrete two-row table for witnesses: the `user1.json`/`user2.json`
scenario after indexing. -/
def sampleRows : List (List String) :=
  [["user1.json", "16", "application/octet-stream", "testdata/user1.json"],
   ["user2.json", "17", "application/octet-stream", "testdata/user2.json"]]

/-- Its persisted table. -/
def sampleTable : String :=
  ⟨csvWrite (headerRow :: sampleRows)⟩

/-! ## Traversal claims -/
mutual

/-- Spec-side list of records (for the refinement in C6): following the
spec's exclusion wording, every entry whose base name starts with `.git` is
skipped — a directory with its whole subtree — and every other
non-directory entry produces exactly one record, in traversal order. -/
def specFiles (path : String) : FSEntry → List FileInfo
  | .file name content _ =>
    if hasGitPre name then [] else [mkRecord path name content]
  | .dir name entries _ =>
    if hasGitPre name then [] else specFilesList path entries

/-- The records expected from a directory's children, in order. -/
def specFilesList (parent : String) : List FSEntry → List FileInfo
  | [] => []
  | e :: rest => specFiles (parent ++ "/" ++ e.name) e ++ specFilesList parent rest

end

mutual

/-- How many non-excluded files a tree holds. -/
def countNonExcluded : FSEntry → Nat
  | .file name _ _ => if hasGitPre name then 0 else 1
  | .dir name entries _ => if hasGitPre name then 0 else countNonExcludedList entries

/-- The same count over a child list. -/
def countNonExcludedList : List FSEntry → Nat
  | [] => 0
  | e :: rest => countNonExcluded e + countNonExcludedList rest

end

/-- The trees used in concrete scenarios below. -/
def emptyFileDir : FSEntry :=
  .dir "d" [.file "empty.txt" [] true] true

/-- `user1.json`, 16 bytes of plain ASCII text. -/
def user1 : FSEntry :=
  .file "user1.json" (asciiBytes "name alice 12345") true

/-- `user2.json`, 17 bytes of plain ASCII text. -/
def user2 : FSEntry :=
  .file "user2.json" (asciiBytes "name robert 12345") true

/-- The scenario directory holding exactly the two `.json` files. -/
def testdataDir : FSEntry :=
  .dir "testdata" [user1, user2] true

/-- The records the scenario produces. -/
def sampleRecords : List FileInfo :=
  [⟨"user1.json", 16, "application/octet-stream", "testdata/user1.json"⟩,
   ⟨"user2.json", 17, "application/octet-stream", "testdata/user2.json"⟩]

/-! ## Sniffing claims -/
/-- Everything the sniffer can ever answer: the content type of some
signature in the table, or the generic binary fallback. -/
def ctUniverse : List String :=
  sniffSignatures.map SniffSig.ctOf ++ ["application/octet-stream"]

/-! ## Record-count and line-count claims (C9) -/
/-- Physical line count of a newline-terminated table: its `\n` count. -/
def lineCount (s : String) : Nat :=
  s.data.count '\n'

mutual

/-- No entry name in the tree contains a newline character. -/
def namesNoNL : FSEntry → Bool
  | .file name _ _ => !name.data.contains '\n'
  | .dir name entries _ => !name.data.contains '\n' && namesNoNLList entries

/-- The list form of `namesNoNL`. -/
def namesNoNLList : List FSEntry → Bool
  | [] => true
  | e :: rest => namesNoNL e && namesNoNLList rest

end

/-! ## Substring facts -/
theorem hasSub_nil_right (hay : List Char) : hasSub hay [] = true := by
  cases hay <;> simp [hasSub]

theorem hasSub_iff_infix (hay nd : List Char) : hasSub hay nd = true ↔ nd <:+: hay := by
  induction hay with
  | nil => simp [hasSub, List.isEmpty_iff]
  | cons c t ih =>
    simp only [hasSub, Bool.or_eq_true, List.isPrefixOf_iff_prefix, ih,
      List.infix_cons_iff]

/-! ## Evaluation lemmas for the reader

`parseRecord` and `readRows` are defined by well-founded recursion, so they
do not reduce definitionally; these equations let concrete tables and the
round-trip argument be evaluated step by step. -/
theorem parseRecord_quoted_err {rest : List Char} {e : CsvError}
    (hq : parseQuoted rest = .error e) :
    parseRecord ('"' :: rest) = .error e := by
  simp only [parseRecord]
  split
  next e2 heq =>
    rw [hq] at heq
    injection heq with h1
    rw [h1]
  next f2 r2 heq =>
    rw [hq] at heq
    exact Except.noConfusion heq
  next f2 fst2 r2 hne heq =>
    rw [hq] at heq
    exact Except.noConfusion heq

theorem parseRecord_quoted_comma {rest f r : List Char}
    (hq : parseQuoted rest = .ok (f, .comma, r)) :
    parseRecord ('"' :: rest) =
      match parseRecord r with
      | .error e => .error e
      | .ok (row, r2) => .ok (⟨f⟩ :: row, r2) := by
  simp only [parseRecord]
  split
  next e2 heq =>
    rw [hq] at heq
    exact Except.noConfusion heq
  next f2 r2 heq =>
    rw [hq] at heq
    simp only [Except.ok.injEq, Prod.mk.injEq] at heq
    obtain ⟨hf, _, hr⟩ := heq
    rw [hf, hr]
  next f2 fst2 r2 hne heq =>
    rw [hq] at heq
    simp only [Except.ok.injEq, Prod.mk.injEq] at heq
    exact (hne heq.2.1.symm).elim

theorem parseRecord_quoted_done {rest f r : List Char} {fe : FieldEnd}
    (hq : parseQuoted rest = .ok (f, fe, r)) (hne : fe ≠ .comma) :
    parseRecord ('"' :: rest) = .ok ([⟨f⟩], r) := by
  simp only [parseRecord]
  split
  next e2 heq =>
    rw [hq] at heq
    exact Except.noConfusion heq
  next f2 r2 heq =>
    rw [hq] at heq
    simp only [Except.ok.injEq, Prod.mk.injEq] at heq
    exact (hne heq.2.1).elim
  next f2 fst2 r2 hne2 heq =>
    rw [hq] at heq
    simp only [Except.ok.injEq, Prod.mk.injEq] at heq
    obtain ⟨hf, _, hr⟩ := heq
    rw [hf, hr]

theorem parseRecord_bare_quote_err {c : Char} {t f r : List Char} {fe : FieldEnd}
    (hc : c ≠ '"') (hb : splitBare (c :: t) = (f, fe, r))
    (hct : f.contains '"' = true) :
    parseRecord (c :: t) = .error .bareQuote := by
  rw [parseRecord.eq_def]
  split
  next rest2 heq =>
    injection heq with h1 h2
    exact (hc h1).elim
  next cs2 hnq =>
    split
    next f2 r2 heq2 =>
      rw [hb] at heq2
      simp only [Prod.mk.injEq] at heq2
      obtain ⟨hf, _, hr⟩ := heq2
      subst hf
      rw [if_pos hct]
    next f2 fst2 r2 hne2 heq2 =>
      rw [hb] at heq2
      simp only [Prod.mk.injEq] at heq2
      obtain ⟨hf, _, hr⟩ := heq2
      subst hf
      rw [if_pos hct]

theorem parseRecord_bare_comma {c : Char} {t f r : List Char}
    (hc : c ≠ '"') (hb : splitBare (c :: t) = (f, .comma, r))
    (hct : f.contains '"' = false) :
    parseRecord (c :: t) =
      match parseRecord r with
      | .error e => .error e
      | .ok (row, r2) => .ok (⟨f⟩ :: row, r2) := by
  rw [parseRecord.eq_def]
  split
  next rest2 heq =>
    injection heq with h1 h2
    exact (hc h1).elim
  next cs2 hnq =>
    split
    next f2 r2 heq2 =>
      rw [hb] at heq2
      simp only [Prod.mk.injEq] at heq2
      obtain ⟨hf, _, hr⟩ := heq2
      subst hf hr
      rw [if_neg (by rw [hct]; simp)]
    next f2 fst2 r2 hne2 heq2 =>
      rw [hb] at heq2
      simp only [Prod.mk.injEq] at heq2
      exact (hne2 heq2.2.1.symm).elim

theorem parseRecord_bare_done {c : Char} {t f r : List Char} {fe : FieldEnd}
    (hc : c ≠ '"') (hb : splitBare (c :: t) = (f, fe, r)) (hne : fe ≠ .comma)
    (hct : f.contains '"' = false) :
    parseRecord (c :: t) = .ok ([⟨f⟩], r) := by
  rw [parseRecord.eq_def]
  split
  next rest2 heq =>
    injection heq with h1 h2
    exact (hc h1).elim
  next cs2 hnq =>
    split
    next f2 r2 heq2 =>
      rw [hb] at heq2
      simp only [Prod.mk.injEq] at heq2
      exact (hne heq2.2.1).elim
    next f2 fst2 r2 hne2 heq2 =>
      rw [hb] at heq2
      simp only [Prod.mk.injEq] at heq2
      obtain ⟨hf, _, hr⟩ := heq2
      subst hf hr
      rw [if_neg (by rw [hct]; simp)]

theorem readRows_nil (expected : Option Nat) : readRows expected [] = ([], none) := by
  simp [readRows]

theorem readRows_newline (expected : Option Nat) (rest : List Char) :
    readRows expected ('\n' :: rest) = readRows expected rest := by
  rw [readRows.eq_def]
  simp

theorem readRows_err {c : Char} {rest : List Char} {e : CsvError} (expected : Option Nat)
    (hc : c ≠ '\n') (hp : parseRecord (c :: rest) = .error e) :
    readRows expected (c :: rest) = ([], some e) := by
  rw [readRows.eq_def]
  split
  next heq0 => exact List.noConfusion heq0
  next c2 rest2 heq0 =>
    injection heq0 with h1 h2
    subst h1
    subst h2
    rw [if_neg hc]
    split
    next e2 heq =>
      rw [hp] at heq
      injection heq with h3
      rw [h3]
    next row2 r2 heq =>
      rw [hp] at heq
      exact Except.noConfusion heq

theorem readRows_record_first {c : Char} {rest : List Char} {row : List String}
    {r : List Char} (hc : c ≠ '\n') (hp : parseRecord (c :: rest) = .ok (row, r)) :
    readRows none (c :: rest) =
      (row :: (readRows (some row.length) r).1, (readRows (some row.length) r).2) := by
  rw [readRows.eq_def]
  split
  next heq0 => exact List.noConfusion heq0
  next c2 rest2 heq0 =>
    injection heq0 with h1 h2
    subst h1
    subst h2
    rw [if_neg hc]
    split
    next e2 heq =>
      rw [hp] at heq
      exact Except.noConfusion heq
    next row2 r2 heq =>
      rw [hp] at heq
      simp only [Except.ok.injEq, Prod.mk.injEq] at heq
      obtain ⟨hrow, hr⟩ := heq
      subst hrow
      subst hr
      rfl

theorem readRows_record_next {c : Char} {rest : List Char} {row : List String}
    {r : List Char} {w : Nat} (hc : c ≠ '\n') (hp : parseRecord (c :: rest) = .ok (row, r))
    (hw : row.length = w) :
    readRows (some w) (c :: rest) =
      (row :: (readRows (some w) r).1, (readRows (some w) r).2) := by
  rw [readRows.eq_def]
  split
  next heq0 => exact List.noConfusion heq0
  next c2 rest2 heq0 =>
    injection heq0 with h1 h2
    subst h1
    subst h2
    rw [if_neg hc]
    split
    next e2 heq =>
      rw [hp] at heq
      exact Except.noConfusion heq
    next row2 r2 heq =>
      rw [hp] at heq
      simp only [Except.ok.injEq, Prod.mk.injEq] at heq
      obtain ⟨hrow, hr⟩ := heq
      subst hrow
      subst hr
      split
      next hww => exact Option.noConfusion hww
      next w2 hww =>
        injection hww with hww2
        subst hww2
        rw [if_pos hw]

theorem normalizeCRLF_cons_ne {c : Char} (cs : List Char) (hc : c ≠ '\r') :
    normalizeCRLF (c :: cs) = c :: normalizeCRLF cs := by
  rw [normalizeCRLF.eq_def]
  split
  next heq => exact List.noConfusion heq
  next t heq =>
    injection heq with h1 h2
    exact (hc h1).elim
  next c2 t heq =>
    injection heq with h1 h2
    subst h1
    subst h2
    rfl

theorem normalizeCRLF_cons_notNL {c : Char} (cs : List Char)
    (h : ∀ t, cs ≠ '\n' :: t) :
    normalizeCRLF (c :: cs) = c :: normalizeCRLF cs := by
  rw [normalizeCRLF.eq_def]
  split
  next heq => exact List.noConfusion heq
  next t heq =>
    injection heq with h1 h2
    exact (h t h2).elim
  next c2 t heq =>
    injection heq with h1 h2
    subst h1
    subst h2
    rfl

theorem noCRLF_cons_elim {c : Char} {cs : List Char} (h : noCRLF (c :: cs) = true) :
    noCRLF cs = true := by
  rw [noCRLF.eq_def] at h
  split at h
  next heq => exact List.noConfusion heq
  next t heq => exact Bool.noConfusion h
  next c2 t heq =>
    injection heq with h1 h2
    subst h2
    exact h

theorem noCRLF_cr_elim {cs : List Char} (h : noCRLF ('\r' :: cs) = true) :
    ∀ t, cs ≠ '\n' :: t := by
  intro t ht
  subst ht
  rw [show noCRLF ('\r' :: '\n' :: t) = false from rfl] at h
  exact Bool.noConfusion h

theorem noCRLF_of_not_cr {cs : List Char} (h : '\r' ∉ cs) : noCRLF cs = true := by
  induction cs with
  | nil => rfl
  | cons c t ih =>
    rw [noCRLF.eq_def]
    split
    next heq => exact List.noConfusion heq
    next u heq =>
      injection heq with h1 h2
      exact absurd (h1 ▸ List.mem_cons_self c t) h
    next c2 u heq =>
      injection heq with h1 h2
      subst h2
      exact ih fun hm => h (List.mem_cons_of_mem c hm)

/-- Appending after a CR-free chunk commutes with normalization. -/
theorem normalizeCRLF_append_nocr {fd rest : List Char} (h : '\r' ∉ fd) :
    normalizeCRLF (fd ++ rest) = fd ++ normalizeCRLF rest := by
  induction fd with
  | nil => rfl
  | cons c t ih =>
    have hc : c ≠ '\r' := fun hx => h (hx ▸ List.mem_cons_self c t)
    rw [List.cons_append, normalizeCRLF_cons_ne _ hc,
      ih fun hm => h (List.mem_cons_of_mem c hm)]
    rfl

theorem escapeQuoted_quote (t : List Char) :
    escapeQuoted ('"' :: t) = '"' :: '"' :: escapeQuoted t := rfl

theorem escapeQuoted_ne {c : Char} (t : List Char) (hc : c ≠ '"') :
    escapeQuoted (c :: t) = c :: escapeQuoted t := by
  rw [escapeQuoted.eq_def]
  split
  next heq => exact List.noConfusion heq
  next u heq =>
    injection heq with h1 h2
    exact (hc h1).elim
  next c2 u heq =>
    injection heq with h1 h2
    subst h1
    subst h2
    rfl

theorem escapeQuoted_head (d : Char) (t : List Char) :
    ∃ u, escapeQuoted (d :: t) = (if d = '"' then '"' else d) :: u := by
  by_cases hd : d = '"'
  · subst hd
    exact ⟨'"' :: escapeQuoted t, by rw [escapeQuoted_quote, if_pos rfl]⟩
  · exact ⟨escapeQuoted t, by rw [escapeQuoted_ne t hd, if_neg hd]⟩

/-- Normalization passes through an escaped, CRLF-free quoted field body and
its closing quote. -/
theorem normalizeCRLF_escaped {fd : List Char} (rest : List Char)
    (h : noCRLF fd = true) :
    normalizeCRLF (escapeQuoted fd ++ '"' :: rest) =
      escapeQuoted fd ++ '"' :: normalizeCRLF rest := by
  induction fd with
  | nil =>
    simp only [escapeQuoted, List.nil_append]
    exact normalizeCRLF_cons_ne rest (by decide)
  | cons c t ih =>
    have ht := noCRLF_cons_elim h
    by_cases hc : c = '"'
    · subst hc
      rw [escapeQuoted_quote, List.cons_append, List.cons_append,
        normalizeCRLF_cons_ne _ (by decide), normalizeCRLF_cons_ne _ (by decide), ih ht]
      rfl
    · rw [escapeQuoted_ne t hc, List.cons_append]
      by_cases hr : c = '\r'
      · subst hr
        have hsafe : ∀ v, escapeQuoted t ++ '"' :: rest ≠ '\n' :: v := by
          intro v hx
          rcases t with _ | ⟨d, t2⟩
          · simp only [escapeQuoted, List.nil_append] at hx
            injection hx with h1 h2
            exact (by decide : ('"' : Char) ≠ '\n') h1
          · obtain ⟨u, hu⟩ := escapeQuoted_head d t2
            rw [hu, List.cons_append] at hx
            injection hx with h1 h2
            have hd : d ≠ '\n' := by
              intro hdx
              exact (noCRLF_cr_elim h t2) (by rw [hdx])
            split at h1
            · exact (by decide : ('"' : Char) ≠ '\n') h1
            · exact hd h1
        rw [normalizeCRLF_cons_notNL _ hsafe, ih ht]
        rfl
      · rw [normalizeCRLF_cons_ne _ hr, ih ht]
        rfl

/-- A field the writer leaves unquoted contains no comma, quote, CR or
LF. -/
theorem fieldNeedsQuotes_false {f : String} (h : fieldNeedsQuotes f = false) :
    ',' ∉ f.data ∧ '"' ∉ f.data ∧ '\r' ∉ f.data ∧ '\n' ∉ f.data := by
  rw [fieldNeedsQuotes] at h
  split at h
  next hempty =>
    subst hempty
    decide
  next hempty =>
    split at h
    next => exact Bool.noConfusion h
    next =>
      split at h
      next => exact Bool.noConfusion h
      next hcon =>
        simp only [Bool.or_eq_true, List.contains, List.elem_eq_mem,
          decide_eq_true_eq] at hcon
        push_neg at hcon
        exact ⟨hcon.1.1.1, hcon.1.1.2, hcon.1.2, hcon.2⟩

/-- Normalization passes through one written field followed by anything. -/
theorem normalizeCRLF_writeField {f : String} (rest : List Char)
    (h : noCRLF f.data = true) :
    normalizeCRLF (writeField f ++ rest) = writeField f ++ normalizeCRLF rest := by
  rw [writeField]
  split
  next =>
    rw [List.cons_append, List.append_assoc]
    rw [normalizeCRLF_cons_ne _ (by decide)]
    rw [show (['"'] ++ rest : List Char) = '"' :: rest from rfl]
    rw [normalizeCRLF_escaped rest h]
    simp
  next hq =>
    have hfacts := fieldNeedsQuotes_false (Bool.of_not_eq_true hq)
    exact normalizeCRLF_append_nocr hfacts.2.2.1

/-- Normalization passes through the written fields of one record. -/
theorem normalizeCRLF_writeFields (row : List String) (rest : List Char)
    (h : ∀ f ∈ row, noCRLF f.data = true) :
    normalizeCRLF (writeFields row ++ rest) = writeFields row ++ normalizeCRLF rest := by
  induction row with
  | nil => rfl
  | cons f t ih =>
    rcases t with _ | ⟨f2, t2⟩
    · exact normalizeCRLF_writeField rest (h f (List.mem_cons_self f []))
    · rw [show writeFields (f :: f2 :: t2) = writeField f ++ ',' :: writeFields (f2 :: t2)
        from rfl]
      rw [List.append_assoc, List.cons_append]
      rw [normalizeCRLF_writeField _ (h f (List.mem_cons_self f (f2 :: t2)))]
      rw [normalizeCRLF_cons_ne _ (by decide)]
      rw [ih fun g hg => h g (List.mem_cons_of_mem f hg)]
      simp

/-- A table written from CRLF-free fields is unchanged by the reader's
normalization. -/
theorem normalizeCRLF_csvWrite (rows : List (List String))
    (h : ∀ row ∈ rows, ∀ f ∈ row, noCRLF f.data = true) :
    normalizeCRLF (csvWrite rows) = csvWrite rows := by
  induction rows with
  | nil => rfl
  | cons row rt ih =>
    rw [show csvWrite (row :: rt) = writeRecord row ++ csvWrite rt from rfl, writeRecord,
      List.append_assoc]
    rw [normalizeCRLF_writeFields row _ (h row (List.mem_cons_self row rt))]
    rw [show (['\n'] ++ csvWrite rt : List Char) = '\n' :: csvWrite rt from rfl]
    rw [normalizeCRLF_cons_ne _ (by decide)]
    rw [ih fun r hr => h r (List.mem_cons_of_mem row hr)]

/-! ## Round trip: parsing written fields back -/
theorem splitBare_append {fd : List Char} (rest : List Char)
    (hcomma : ',' ∉ fd) (hnl : '\n' ∉ fd) {d : Char} (hd : d = ',' ∨ d = '\n') :
    splitBare (fd ++ d :: rest) =
      (fd, if d = ',' then FieldEnd.comma else FieldEnd.newline, rest) := by
  induction fd with
  | nil =>
    rcases hd with hd | hd <;> subst hd
    · simp [splitBare]
    · simp [splitBare]
  | cons c t ih =>
    have hc1 : c ≠ ',' := fun hx => hcomma (hx ▸ List.mem_cons_self c t)
    have hc2 : c ≠ '\n' := fun hx => hnl (hx ▸ List.mem_cons_self c t)
    rw [List.cons_append, splitBare, if_neg hc1, if_neg hc2]
    rw [ih (fun hm => hcomma (List.mem_cons_of_mem c hm))
      (fun hm => hnl (List.mem_cons_of_mem c hm))]

theorem parseQuoted_escaped {fd : List Char} (rest : List Char) {d : Char}
    (hd : d = ',' ∨ d = '\n') :
    parseQuoted (escapeQuoted fd ++ '"' :: d :: rest) =
      .ok (fd, if d = ',' then FieldEnd.comma else FieldEnd.newline, rest) := by
  induction fd with
  | nil =>
    rcases hd with hd | hd <;> subst hd
    · simp [escapeQuoted, parseQuoted]
    · simp [escapeQuoted, parseQuoted]
  | cons c t ih =>
    by_cases hc : c = '"'
    · subst hc
      rw [escapeQuoted_quote, List.cons_append, List.cons_append]
      rw [show parseQuoted ('"' :: '"' :: (escapeQuoted t ++ '"' :: d :: rest)) =
        (do
          let (f, e, r) ← parseQuoted (escapeQuoted t ++ '"' :: d :: rest)
          .ok ('"' :: f, e, r)) from rfl]
      rw [ih]
      rfl
    · rw [escapeQuoted_ne t hc, List.cons_append]
      conv =>
        lhs
        rw [parseQuoted.eq_def]
      split
      next heq => exact absurd heq (by simp)
      next u heq =>
        injection heq with h1 h2
        exact (hc h1).elim
      next c2 u heq =>
        injection heq with h1 h2
        subst h1
        rw [← h2, ih]
        rfl

theorem splitBare_append_comma {fd : List Char} (rest : List Char)
    (h1 : ',' ∉ fd) (h2 : '\n' ∉ fd) :
    splitBare (fd ++ ',' :: rest) = (fd, FieldEnd.comma, rest) := by
  rw [splitBare_append rest h1 h2 (Or.inl rfl)]
  rw [if_pos rfl]

theorem splitBare_append_newline {fd : List Char} (rest : List Char)
    (h1 : ',' ∉ fd) (h2 : '\n' ∉ fd) :
    splitBare (fd ++ '\n' :: rest) = (fd, FieldEnd.newline, rest) := by
  rw [splitBare_append rest h1 h2 (Or.inr rfl)]
  rw [if_neg (by decide)]

theorem parseQuoted_escaped_comma (fd : List Char) (rest : List Char) :
    parseQuoted (escapeQuoted fd ++ '"' :: ',' :: rest) = .ok (fd, .comma, rest) := by
  rw [parseQuoted_escaped rest (Or.inl rfl)]
  rw [if_pos rfl]

theorem parseQuoted_escaped_newline (fd : List Char) (rest : List Char) :
    parseQuoted (escapeQuoted fd ++ '"' :: '\n' :: rest) = .ok (fd, .newline, rest) := by
  rw [parseQuoted_escaped rest (Or.inr rfl)]
  rw [if_neg (by decide)]

/-- An unquoted field never contains a quote, so the bare-field quote check
passes. -/
theorem contains_quote_false {f : String} (h : '"' ∉ f.data) :
    f.data.contains '"' = false := by
  simp only [List.contains, List.elem_eq_mem, decide_eq_false_iff_not]
  exact h

/-- Parsing one written record back: the exact field list returns, with the
input following the record terminator untouched. -/
theorem parseRecord_write (row : List String) (rest : List Char) (hne : row ≠ []) :
    parseRecord (writeFields row ++ '\n' :: rest) = .ok (row, rest) := by
  induction row with
  | nil => exact (hne rfl).elim
  | cons f t ih =>
    rcases t with _ | ⟨f2, t2⟩
    · rw [show writeFields [f] = writeField f from rfl, writeField]
      split
      next hq =>
        rw [List.cons_append, List.append_assoc]
        rw [show (['"'] ++ '\n' :: rest : List Char) = '"' :: '\n' :: rest from rfl]
        rw [parseRecord_quoted_done (parseQuoted_escaped_newline f.data rest) (by decide)]
      next hq =>
        have facts := fieldNeedsQuotes_false (Bool.of_not_eq_true hq)
        rcases hfd : f.data with _ | ⟨d, t⟩
        · rw [List.nil_append]
          rw [parseRecord_bare_done (show ('\n' : Char) ≠ '"' by decide)
            (show splitBare ('\n' :: rest) = ([], FieldEnd.newline, rest) from rfl)
            (by decide) (by decide)]
          have hfe : f = ⟨[]⟩ := by
            rw [← hfd]
          rw [hfe]
        · have hd : d ≠ '"' := by
            intro hx
            exact facts.2.1 (by rw [hfd, hx]; exact List.mem_cons_self _ _)
          rw [List.cons_append]
          rw [parseRecord_bare_done hd
            (show splitBare (d :: (t ++ '\n' :: rest)) = (d :: t, FieldEnd.newline, rest) by
              rw [show (d :: (t ++ '\n' :: rest) : List Char) = (d :: t) ++ '\n' :: rest
                from rfl]
              exact splitBare_append_newline rest (hfd ▸ facts.1) (hfd ▸ facts.2.2.2))
            (by decide)
            (contains_quote_false (hfd ▸ facts.2.1))]
          have hfe : f = ⟨d :: t⟩ := by
            rw [← hfd]
          rw [hfe]
    · have ihne : f2 :: t2 ≠ [] := by simp
      rw [show writeFields (f :: f2 :: t2) = writeField f ++ ',' :: writeFields (f2 :: t2)
        from rfl]
      rw [List.append_assoc, List.cons_append]
      rw [writeField]
      split
      next hq =>
        rw [List.cons_append, List.append_assoc]
        rw [show (['"'] ++ ',' :: (writeFields (f2 :: t2) ++ '\n' :: rest) : List Char) =
          '"' :: ',' :: (writeFields (f2 :: t2) ++ '\n' :: rest) from rfl]
        rw [parseRecord_quoted_comma (parseQuoted_escaped_comma f.data _)]
        rw [ih ihne]
      next hq =>
        have facts := fieldNeedsQuotes_false (Bool.of_not_eq_true hq)
        rcases hfd : f.data with _ | ⟨d, t⟩
        · rw [List.nil_append]
          rw [parseRecord_bare_comma (show (',' : Char) ≠ '"' by decide)
            (show splitBare (',' :: (writeFields (f2 :: t2) ++ '\n' :: rest)) =
              ([], FieldEnd.comma, writeFields (f2 :: t2) ++ '\n' :: rest) from rfl)
            (by decide)]
          rw [ih ihne]
          have hfe : f = ⟨[]⟩ := by
            rw [← hfd]
          rw [hfe]
        · have hd : d ≠ '"' := by
            intro hx
            exact facts.2.1 (by rw [hfd, hx]; exact List.mem_cons_self _ _)
          rw [List.cons_append]
          rw [parseRecord_bare_comma hd
            (show splitBare (d :: (t ++ ',' :: (writeFields (f2 :: t2) ++ '\n' :: rest))) =
              (d :: t, FieldEnd.comma, writeFields (f2 :: t2) ++ '\n' :: rest) by
              rw [show (d :: (t ++ ',' :: (writeFields (f2 :: t2) ++ '\n' :: rest)) :
                List Char) = (d :: t) ++ ',' :: (writeFields (f2 :: t2) ++ '\n' :: rest)
                from rfl]
              exact splitBare_append_comma _ (hfd ▸ facts.1) (hfd ▸ facts.2.2.2))
            (contains_quote_false (hfd ▸ facts.2.1))]
          rw [ih ihne]
          have hfe : f = ⟨d :: t⟩ := by
            rw [← hfd]
          rw [hfe]

/-- A written record of at least two fields never starts with a newline
(so the reader's empty-line skip never discards it). -/
theorem writeFields_head (f f2 : String) (t2 : List String) (X : List Char) :
    ∃ c u, writeFields (f :: f2 :: t2) ++ X = c :: u ∧ c ≠ '\n' := by
  rw [show writeFields (f :: f2 :: t2) = writeField f ++ ',' :: writeFields (f2 :: t2)
    from rfl]
  rw [writeField]
  split
  next hq =>
    exact ⟨'"', escapeQuoted f.data ++ ['"'] ++ ',' :: writeFields (f2 :: t2) ++ X,
      by simp, by decide⟩
  next hq =>
    have facts := fieldNeedsQuotes_false (Bool.of_not_eq_true hq)
    rcases hfd : f.data with _ | ⟨d, t⟩
    · exact ⟨',', writeFields (f2 :: t2) ++ X, by simp, by decide⟩
    · refine ⟨d, t ++ ',' :: writeFields (f2 :: t2) ++ X, by simp, ?_⟩
      intro hx
      exact facts.2.2.2 (hfd ▸ hx ▸ List.mem_cons_self d t)

/-- Reading one written record of `w ≥ 2` fields consumes it exactly. -/
theorem readRows_one {row : List String} (rest : List Char) {w : Nat}
    (hlen : row.length = w) (h2 : 2 ≤ w) :
    readRows (some w) (writeRecord row ++ rest) =
      (row :: (readRows (some w) rest).1, (readRows (some w) rest).2) := by
  rcases row with _ | ⟨f, _ | ⟨f2, t2⟩⟩
  · rw [List.length_nil] at hlen
    omega
  · rw [List.length_cons, List.length_nil] at hlen
    omega
  · obtain ⟨c, u, hcu, hcne⟩ := writeFields_head f f2 t2 ('\n' :: rest)
    rw [writeRecord, List.append_assoc]
    rw [show (['\n'] ++ rest : List Char) = '\n' :: rest from rfl]
    rw [hcu]
    have hp : parseRecord (c :: u) = .ok (f :: f2 :: t2, rest) := by
      rw [← hcu]
      exact parseRecord_write _ _ (by simp)
    exact readRows_record_next hcne hp hlen

/-- Reading back a whole written table of fixed-width records. -/
theorem readRows_table (rows : List (List String)) {w : Nat} (h2 : 2 ≤ w)
    (hlen : ∀ row ∈ rows, row.length = w) :
    readRows (some w) (csvWrite rows) = (rows, none) := by
  induction rows with
  | nil => exact readRows_nil _
  | cons row rt ih =>
    rw [show csvWrite (row :: rt) = writeRecord row ++ csvWrite rt from rfl]
    rw [readRows_one _ (hlen row (List.mem_cons_self row rt)) h2]
    rw [ih fun r hr => hlen r (List.mem_cons_of_mem row hr)]

/-- Reading back a whole written table: the first record fixes the
expected field count. -/
theorem readRows_written (first : List String) (rows : List (List String)) {w : Nat}
    (hfirst : first.length = w) (h2 : 2 ≤ w)
    (hlen : ∀ row ∈ rows, row.length = w) :
    readRows none (csvWrite (first :: rows)) = (first :: rows, none) := by
  rcases first with _ | ⟨f, _ | ⟨f2, t2⟩⟩
  · rw [List.length_nil] at hfirst
    omega
  · rw [List.length_cons, List.length_nil] at hfirst
    omega
  · obtain ⟨c, u, hcu, hcne⟩ := writeFields_head f f2 t2 ('\n' :: csvWrite rows)
    rw [show csvWrite ((f :: f2 :: t2) :: rows) = writeRecord (f :: f2 :: t2) ++ csvWrite rows
      from rfl]
    rw [writeRecord, List.append_assoc]
    rw [show (['\n'] ++ csvWrite rows : List Char) = '\n' :: csvWrite rows from rfl]
    rw [hcu]
    have hp : parseRecord (c :: u) = .ok (f :: f2 :: t2, csvWrite rows) := by
      rw [← hcu]
      exact parseRecord_write _ _ (by simp)
    rw [readRows_record_first hcne hp]
    rw [hfirst]
    rw [readRows_table rows h2 hlen]

/-- `ReadAll` returns the loop's rows when the loop succeeds. -/
theorem csvReadAll_ok {content : String} {rows : List (List String)}
    (h : readRows none (normalizeCRLF content.data) = (rows, none)) :
    csvReadAll content = (rows, none) := by
  rw [csvReadAll.eq_def, h]

/-- `ReadAll` discards the loop's rows on any failure (`return nil, err`). -/
theorem csvReadAll_fail {content : String} {rows : List (List String)} {e : CsvError}
    (h : readRows none (normalizeCRLF content.data) = (rows, some e)) :
    csvReadAll content = ([], some e) := by
  rw [csvReadAll.eq_def, h]

/-- `ReadAll` either succeeds or returns no rows at all: whenever the error
component is set, the record list is empty. -/
theorem csvReadAll_shape (content : String) :
    (csvReadAll content).2 = none ∨ (csvReadAll content).1 = [] := by
  rw [csvReadAll.eq_def]
  split
  · exact Or.inl rfl
  · exact Or.inr rfl

/-- `ReadAll` on a table written from fixed-width, CRLF-free records
returns exactly the written records with no error. -/
theorem csvReadAll_written (first : List String) (rows : List (List String)) {w : Nat}
    (hfirst : first.length = w) (h2 : 2 ≤ w)
    (hlen : ∀ row ∈ rows, row.length = w)
    (hnc : ∀ row ∈ first :: rows, ∀ f ∈ row, noCRLF f.data = true) :
    csvReadAll ⟨csvWrite (first :: rows)⟩ = (first :: rows, none) := by
  apply csvReadAll_ok
  rw [show (String.mk (csvWrite (first :: rows))).data = csvWrite (first :: rows) from rfl]
  rw [normalizeCRLF_csvWrite _ hnc]
  exact readRows_written first rows hfirst h2 hlen

/-- Every character a size renders to is a decimal digit. -/
theorem formatNatAux_digits (fuel n : Nat) :
    ∀ c ∈ formatNatAux fuel n, c ∈ ("0123456789" : String).data := by
  induction fuel generalizing n with
  | zero =>
    intro c hc
    simp [formatNatAux] at hc
  | succ fuel ih =>
    intro c hc
    rw [formatNatAux] at hc
    split at hc
    next hlt =>
      rcases List.mem_singleton.mp hc with rfl
      interval_cases n <;> decide
    next hlt =>
      rcases List.mem_append.mp hc with hc | hc
      · exact ih (n / 10) c hc
      · rcases List.mem_singleton.mp hc with rfl
        have hm : n % 10 < 10 := Nat.mod_lt n (by omega)
        generalize hk : n % 10 = k at hm ⊢
        interval_cases k <;> decide

theorem formatNat_noCRLF (n : Nat) : noCRLF (formatNat n).data = true := by
  apply noCRLF_of_not_cr
  intro hm
  have := formatNatAux_digits (n + 1) n '\r' hm
  exact absurd this (by decide)

theorem formatNat_no_newline (n : Nat) : '\n' ∉ (formatNat n).data := by
  intro hm
  have := formatNatAux_digits (n + 1) n '\n' hm
  exact absurd this (by decide)

/-- The header-only table parses to exactly one row and no error. -/
theorem csvReadAll_headerOnly : csvReadAll headerOnlyTable = ([headerRow], none) := by
  rw [show headerOnlyTable = ⟨csvWrite [headerRow]⟩ from by decide]
  exact csvReadAll_written headerRow [] rfl (by decide) (by simp) (by decide)

/-! ## Claim theorems for the searcher -/
/-- C4 counterexample: on a persisted table holding only the header row,
`search` takes the match loop (over zero data rows) and yields an empty
match list; the `EmptyIndexWarning` path (`len(lines) == 0`) is not taken,
contradicting the claim that a header-only table produces the warning
signal. -/
theorem headerOnly_not_warning_counterexample :
    search headerOnlyTable "user" = .matches [] ∧
    SearchOutcome.matches [] ≠ SearchOutcome.emptyIndexWarning := by
  constructor
  · rw [search, csvReadAll_headerOnly]
    decide
  · decide

/-- C4 (amended): for every persisted table whose contents parse to exactly
one row (the header) with no read error, `search` returns an empty result
and does not fail; the distinct empty-index signal is not emitted — the
code reserves it for tables that parse to zero rows. -/
theorem headerOnly_search_empty (content q : String) (h : List String)
    (hparse : csvReadAll content = ([h], none)) :
    search content q = .matches [] := by
  simp [search, hparse]

/-- Witness for `headerOnly_search_empty` at the concrete header-only
table. -/
theorem headerOnly_search_empty_witness :
    search headerOnlyTable "user1" = .matches [] :=
  headerOnly_search_empty headerOnlyTable "user1" headerRow csvReadAll_headerOnly

/-- C5: for every index table content that loads without error into a
header and data rows (each a non-empty field list, as every written record
row is), and every query `q`: `search` returns exactly the rows whose first
(`name`) column contains `q` as a contiguous case-sensitive substring
(`List.IsInfix` on the characters); the result is a sublist of the data
rows, so matches keep the table's row order; and for `q = ""` every data
row is returned. -/
theorem search_substring_characterization
    (content q : String) (header : List String) (rows : List (List String))
    (hparse : csvReadAll content = (header :: rows, none))
    (hrows : ∀ row ∈ rows, row ≠ []) :
    search content q = .matches (rows.filter (rowMatches q)) ∧
    (∀ row ∈ rows,
      (row ∈ rows.filter (rowMatches q) ↔ q.data <:+: (row.headD "").data)) ∧
    List.Sublist (rows.filter (rowMatches q)) rows ∧
    (q = "" → rows.filter (rowMatches q) = rows) := by
  refine ⟨by simp [search, hparse], ?_, List.filter_sublist rows, ?_⟩
  · intro row hrow
    rw [List.mem_filter]
    rcases hd : row with _ | ⟨f, t⟩
    · exact absurd hd (hrows row hrow)
    · subst hd
      simp only [rowMatches, List.headD_cons, hasSub_iff_infix]
      exact ⟨fun hp => hp.2, fun hp => ⟨hrow, hp⟩⟩
  · intro hq
    subst hq
    rw [List.filter_eq_self]
    intro row hrow
    rcases hd : row with _ | ⟨f, t⟩
    · exact absurd hd (hrows row hrow)
    · subst hd
      simp only [rowMatches]
      exact hasSub_nil_right f.data

/-- The sample table loads back exactly. -/
theorem csvReadAll_sampleTable :
    csvReadAll sampleTable = (headerRow :: sampleRows, none) :=
  csvReadAll_written headerRow sampleRows rfl (by decide) (by decide) (by decide)

/-- Witness for `search_substring_characterization` on the concrete
two-record table of the `user1.json`/`user2.json` scenario. -/
theorem search_substring_characterization_witness :
    search sampleTable "json" = .matches sampleRows := by
  have h := search_substring_characterization sampleTable "json" headerRow sampleRows
    csvReadAll_sampleTable (by decide)
  rw [h.1]
  decide

/-- The zero-byte index file parses to zero rows. -/
theorem csvReadAll_empty : csvReadAll "" = ([], none) := by
  apply csvReadAll_ok
  rw [show normalizeCRLF "".data = ([] : List Char) from rfl]
  exact readRows_nil none

/-- A file whose very first row is malformed (a stray byte after a closing
quote) parses to zero rows with an `ErrQuote` failure. -/
theorem csvReadAll_malformed : csvReadAll "\"ab\"x\n" = ([], some .quote) := by
  apply csvReadAll_fail
  rw [show normalizeCRLF ("\"ab\"x\n").data = '"' :: 'a' :: 'b' :: '"' :: 'x' :: '\n' :: []
    from by decide]
  rw [readRows_err none (by decide)
    (parseRecord_quoted_err (show parseQuoted ('a' :: 'b' :: '"' :: 'x' :: '\n' :: []) =
      .error .quote from rfl))]

/-- On the header-then-malformed-row table, the reading loop parses the
header row and then fails with `ErrQuote`. -/
theorem readRows_headerThenBad :
    readRows none (normalizeCRLF malformedTable.data) = ([headerRow], some .quote) := by
  have hbad : readRows (some 4) ('"' :: 'a' :: 'b' :: '"' :: 'x' :: '\n' :: []) =
      ([], some .quote) :=
    readRows_err (some 4) (by decide)
      (parseRecord_quoted_err (show parseQuoted ('a' :: 'b' :: '"' :: 'x' :: '\n' :: []) =
        .error .quote from rfl))
  obtain ⟨c, u, hcu, hcne⟩ := writeFields_head "Name" "Size" ["Type", "Path"]
    ('\n' :: '"' :: 'a' :: 'b' :: '"' :: 'x' :: '\n' :: [])
  rw [show normalizeCRLF malformedTable.data =
    writeFields ["Name", "Size", "Type", "Path"] ++
      '\n' :: '"' :: 'a' :: 'b' :: '"' :: 'x' :: '\n' :: [] from by decide]
  rw [hcu]
  have hp : parseRecord (c :: u) =
      .ok (["Name", "Size", "Type", "Path"],
        '"' :: 'a' :: 'b' :: '"' :: 'x' :: '\n' :: []) := by
    rw [← hcu]
    exact parseRecord_write _ _ (by simp)
  rw [readRows_record_first hcne hp]
  rw [show (["Name", "Size", "Type", "Path"] : List String).length = 4 from rfl]
  rw [hbad]
  rfl

/-- `ReadAll` on that table discards the parsed header row (`return nil,
err`) and reports only the error. -/
theorem csvReadAll_headerThenBad : csvReadAll malformedTable = ([], some .quote) :=
  csvReadAll_fail readRows_headerThenBad

/-- C10 counterexample: on a table whose header row parses but whose second
row is malformed, one row was parsed before the failure, yet no read error
is surfaced: `ReadAll` returns `nil, err`, discarding the parsed row, so
`len(lines) == 0` holds and `search` takes the empty-index warning path,
never the fatal read-failure path — contradicting the claim that a read
error is surfaced when at least one row was parsed before the failure. -/
theorem read_error_never_surfaced_counterexample :
    readRows none (normalizeCRLF malformedTable.data) = ([headerRow], some .quote) ∧
    search malformedTable "user1" = .emptyIndexWarning ∧
    ∀ e : CsvError, search malformedTable "user1" ≠ .readFailure e := by
  refine ⟨readRows_headerThenBad, ?_, ?_⟩
  · rw [search, csvReadAll_headerThenBad]
    rfl
  · intro e h
    rw [search, csvReadAll_headerThenBad] at h
    exact SearchOutcome.noConfusion h

/-- C10 (amended): the empty-table check of `search` does run before the
read-error check, and whenever the csv parse yields zero rows — a zero-byte
file and a file whose very first row is malformed included — `search` takes
the empty-index path; but `ReadAll` returns `nil, err` on any failure,
discarding rows parsed before the error, so every parse failure (even one
after successfully parsed rows) also yields zero rows and takes the
empty-index path: the read-failure branch of `search` is unreachable on
every input. -/
theorem empty_parse_precedence :
    (∀ content q : String, (csvReadAll content).1 = [] →
      search content q = .emptyIndexWarning) ∧
    (∀ content q : String, (csvReadAll content).2.isSome = true →
      search content q = .emptyIndexWarning) ∧
    (∀ (content q : String) (e : CsvError), search content q ≠ .readFailure e) := by
  refine ⟨?_, ?_, ?_⟩
  · intro content q h
    simp [search, h]
  · intro content q h
    rcases csvReadAll_shape content with h2 | h2
    · rw [h2] at h
      exact Bool.noConfusion h
    · simp [search, h2]
  · intro content q e h
    simp only [search] at h
    rcases csvReadAll_shape content with h2 | h2
    · rw [h2] at h
      split at h
      · exact SearchOutcome.noConfusion h
      · exact SearchOutcome.noConfusion h
    · rw [h2, List.isEmpty_nil, if_pos rfl] at h
      exact SearchOutcome.noConfusion h

/-- Witness for `empty_parse_precedence`: the zero-byte index file takes
the empty-index path; the header-then-malformed-row table has its error
component set, also takes the empty-index path, and does not yield the
read-failure outcome. -/
theorem empty_parse_precedence_witness :
    search "" "q" = .emptyIndexWarning ∧
    search malformedTable "q" = .emptyIndexWarning ∧
    search malformedTable "q" ≠ .readFailure .quote :=
  ⟨empty_parse_precedence.1 "" "q" (by rw [csvReadAll_empty]),
   empty_parse_precedence.2.1 malformedTable "q" (by rw [csvReadAll_headerThenBad]; rfl),
   empty_parse_precedence.2.2 malformedTable "q" .quote⟩

/-! ## Claim theorems for the round trip (C8) -/
/-- C8 counterexample: a record whose name contains the two-character
sequence CR LF does not survive the round trip — the csv reader normalizes
`\r\n` to `\n`, so the name reads back altered. -/
theorem roundtrip_crlf_counterexample :
    csvReadAll (indexTable [⟨"a\r\nb", 1, "t", "p"⟩]) =
      ([headerRow, ["a\nb", "1", "t", "p"]], none) ∧
    ("a\nb" : String) ≠ "a\r\nb" := by
  constructor
  · rw [show indexTable [⟨"a\r\nb", 1, "t", "p"⟩] =
      ⟨csvWrite [headerRow, ["a\r\nb", "1", "t", "p"]]⟩ from by decide]
    apply csvReadAll_ok
    rw [show normalizeCRLF (String.mk (csvWrite [headerRow, ["a\r\nb", "1", "t", "p"]])).data
      = csvWrite [headerRow, ["a\nb", "1", "t", "p"]] from by decide]
    exact readRows_written headerRow [["a\nb", "1", "t", "p"]] rfl (by decide) (by decide)
  · decide

/-- C8 (amended): serializing any record list to the table and loading it
back preserves every record's name, size (as its decimal string), content
type and path exactly, provided no field contains the two-character
sequence CR LF — the one alteration the reader's line-ending normalization
forces. -/
theorem csv_roundtrip (files : List FileInfo)
    (h : ∀ fi ∈ files, noCRLF fi.Name.data = true ∧ noCRLF fi.«Type».data = true ∧
      noCRLF fi.Path.data = true) :
    csvReadAll (indexTable files) = (headerRow :: files.map recordRow, none) := by
  rw [indexTable]
  refine csvReadAll_written headerRow (files.map recordRow) rfl (by decide) ?_ ?_
  · intro row hrow
    rcases List.mem_map.mp hrow with ⟨fi, hfi, rfl⟩
    rfl
  · intro row hrow f hf
    rcases List.mem_cons.mp hrow with rfl | hrow
    · simp only [headerRow, List.mem_cons, List.not_mem_nil, or_false] at hf
      rcases hf with rfl | rfl | rfl | rfl <;> decide
    · rcases List.mem_map.mp hrow with ⟨fi, hfi, rfl⟩
      obtain ⟨h1, h2, h3⟩ := h fi hfi
      simp only [recordRow, List.mem_cons, List.not_mem_nil, or_false] at hf
      rcases hf with rfl | rfl | rfl | rfl
      · exact h1
      · exact formatNat_noCRLF fi.Size
      · exact h2
      · exact h3

/-- Witness for `csv_roundtrip` at a concrete record list with quoting in
play (a comma and a quote in the name). -/
theorem csv_roundtrip_witness :
    csvReadAll (indexTable [⟨"a,\"b", 2, "application/octet-stream", "d/a"⟩]) =
      ([headerRow, ["a,\"b", "2", "application/octet-stream", "d/a"]], none) :=
  csv_roundtrip [⟨"a,\"b", 2, "application/octet-stream", "d/a"⟩] (by decide)

mutual

/-- A successful walk returns exactly the records the spec's exclusion rule
designates, in traversal order. -/
theorem walkEntry_ok_spec {path : String} {e : FSEntry} {rs : List FileInfo}
    (h : walkEntry path e = .ok rs) : rs = specFiles path e := by
  cases e with
  | file name content openOk =>
    rw [walkEntry, visitFile] at h
    rw [specFiles]
    split at h
    next hg =>
      rw [if_pos hg]
      injection h with h1
      exact h1.symm
    next hg =>
      rw [if_neg hg]
      split at h
      next => exact Except.noConfusion h
      next =>
        rw [readSample] at h
        split at h
        next => simp [bind, Except.bind] at h
        next =>
          simp only [bind, Except.bind, Except.ok.injEq] at h
          exact h.symm
  | dir name entries listOk =>
    rw [walkEntry] at h
    rw [specFiles]
    split at h
    next => exact Except.noConfusion h
    next hlist =>
      split at h
      next hg =>
        rw [if_pos hg]
        injection h with h1
        exact h1.symm
      next hg =>
        rw [if_neg hg]
        exact walkList_ok_spec h

/-- The list form of `walkEntry_ok_spec`. -/
theorem walkList_ok_spec {parent : String} {es : List FSEntry} {rs : List FileInfo}
    (h : walkList parent es = .ok rs) : rs = specFilesList parent es := by
  cases es with
  | nil =>
    rw [walkList] at h
    injection h with h1
    rw [specFilesList]
    exact h1.symm
  | cons e rest =>
    rw [walkList] at h
    rw [specFilesList]
    rcases he : walkEntry (parent ++ "/" ++ e.name) e with er | rs1
    · rw [he] at h
      simp [bind, Except.bind] at h
    · rw [he] at h
      rcases hl : walkList parent rest with er | rs2
      · rw [hl] at h
        simp [bind, Except.bind] at h
      · rw [hl] at h
        simp only [bind, Except.bind, Except.ok.injEq] at h
        rw [← h, walkEntry_ok_spec he, walkList_ok_spec hl]

end

/-- C1: main.go reads each file with a single `file.Read(buffer)` and
treats any non-nil error as fatal; on a 0-byte file `Read` returns
`(0, io.EOF)`, so indexing a directory holding one empty file aborts the
whole traversal with a read error instead of indexing the file with
`size=0`, and no table at all is persisted.  This contradicts the spec,
which requires the 0-byte read not to be treated as an error. -/
theorem empty_file_aborts_walk :
    BuildIndex "d" emptyFileDir = .error (.fileRead "d/empty.txt") ∧
    persistedTable (runIndex "d" emptyFileDir) = none := by
  constructor
  · rfl
  · rfl

/-- C6: the `.git` exclusion is exact.  A file whose base name starts with
`.git` yields no record even when unreadable (it is skipped before the
open); a directory whose base name starts with `.git` is pruned whole — the
result is `[]` whatever its subtree holds, even unreadable or empty files,
so the subtree is never visited; and a successful walk returns exactly the
spec's record list (`specFiles`), so no entry with any other name is
excluded. -/
theorem git_exclusion_exact :
    (∀ (path name : String) (content : List Byte) (openOk : Bool),
      hasGitPre name = true → walkEntry path (.file name content openOk) = .ok []) ∧
    (∀ (path name : String) (entries : List FSEntry),
      hasGitPre name = true → walkEntry path (.dir name entries true) = .ok []) ∧
    (∀ (path : String) (e : FSEntry) (rs : List FileInfo),
      walkEntry path e = .ok rs → rs = specFiles path e) := by
  refine ⟨?_, ?_, ?_⟩
  · intro path name content openOk hg
    rw [walkEntry, visitFile, if_pos hg]
  · intro path name entries hg
    rw [walkEntry]
    rw [show (!true) = false from rfl]
    rw [if_neg (by simp)]
    rw [if_pos hg]
  · intro path e rs h
    exact walkEntry_ok_spec h

/-- Witness for `git_exclusion_exact`: an unreadable `.gitignore` file, a
`.git` directory full of unreadable files, and the concrete two-file
scenario walk. -/
theorem git_exclusion_exact_witness :
    walkEntry "r/.gitignore" (.file ".gitignore" [] false) = .ok [] ∧
    walkEntry "r/.git" (.dir ".git" [.file "secret" [] false] true) = .ok [] ∧
    sampleRecords = specFiles "testdata" testdataDir := by
  refine ⟨?_, ?_, ?_⟩
  · exact git_exclusion_exact.1 "r/.gitignore" ".gitignore" [] false (by decide)
  · exact git_exclusion_exact.2.1 "r/.git" ".git" [.file "secret" [] false] (by decide)
  · exact git_exclusion_exact.2.2 "testdata" testdataDir sampleRecords rfl

/-- C7: any error during the traversal aborts the entire run at once.  If
visiting an entry fails, the walk over any list beginning with that entry
fails with the same error — whatever entries follow, so nothing after the
failure is visited — and the indexing run itself then yields that error
and persists no table, not even a partial one (`os.Create` runs only after
the whole walk has succeeded). -/
theorem walk_error_aborts :
    (∀ (parent : String) (e : FSEntry) (rest : List FSEntry) (er : WalkError),
      walkEntry (parent ++ "/" ++ e.name) e = .error er →
      walkList parent (e :: rest) = .error er) ∧
    (∀ (rootPath : String) (root : FSEntry) (er : WalkError),
      walkEntry rootPath root = .error er →
      runIndex rootPath root = .error er ∧
      persistedTable (runIndex rootPath root) = none) := by
  constructor
  · intro parent e rest er h
    rw [walkList, h]
    rfl
  · intro rootPath root er h
    constructor
    · rw [runIndex, BuildIndex, h]
    · rw [persistedTable.eq_def, runIndex, BuildIndex, h]

/-- Witness for `walk_error_aborts`: an unreadable file aborts the walk of
its whole sibling list with `FileAccessError`, and the run persists
nothing. -/
theorem walk_error_aborts_witness :
    walkList "d" [.file "locked.txt" [0x61] false, .file "later.txt" [0x62] true] =
      .error (.fileOpen "d/locked.txt") ∧
    persistedTable (runIndex "d" (.dir "d" [.file "locked.txt" [0x61] false] true)) =
      none := by
  constructor
  · exact walk_error_aborts.1 "d" (.file "locked.txt" [0x61] false)
      [.file "later.txt" [0x62] true] (.fileOpen "d/locked.txt") rfl
  · exact (walk_error_aborts.2 "d" (.dir "d" [.file "locked.txt" [0x61] false] true)
      (.fileOpen "d/locked.txt") rfl).2

theorem firstMatch_mem {data dataWS : List Byte} {sigs : List SniffSig} {ct : String}
    (h : firstMatch data dataWS sigs = some ct) : ct ∈ sigs.map SniffSig.ctOf := by
  induction sigs with
  | nil => exact Option.noConfusion h
  | cons s ss ih =>
    rw [firstMatch] at h
    split at h
    · injection h with h1
      rw [List.map_cons, ← h1]
      exact List.mem_cons_self _ _
    · rw [List.map_cons]
      exact List.mem_cons_of_mem _ (ih h)

theorem detectContentType_mem (d : List Byte) : detectContentType d ∈ ctUniverse := by
  rw [detectContentType]
  split
  next ct heq =>
    exact List.mem_append_left _ (firstMatch_mem heq)
  next heq =>
    exact List.mem_append_right _ (List.mem_cons_self _ _)

/-- C2 counterexample: `user1.json` holds 16 bytes of plain ASCII text, yet
its record's content type is the binary fallback
`application/octet-stream`, not the sniffer's generic text type
`text/plain; charset=utf-8`: the walk passes the whole 512-byte buffer
unsliced, and the NUL padding defeats the text signature. -/
theorem ascii_text_not_text_type_counterexample :
    BuildIndex "testdata" (.dir "testdata" [user1] true) =
      .ok [⟨"user1.json", 16, "application/octet-stream", "testdata/user1.json"⟩] ∧
    "application/octet-stream" ≠ "text/plain; charset=utf-8" := by
  constructor
  · rfl
  · decide

/-- C2 (amended): the sniffer can never produce an `application/json` type
(it is not in its signature table), so a `.json` file is indeed never
classified by extension; but a plain-ASCII file is assigned the generic
text type only when it fills the whole 512-byte sample — the 16-byte
plain-ASCII example is assigned the binary fallback
`application/octet-stream`, because the unread remainder of the buffer is
NUL-filled and the text heuristic treats NUL as binary. -/
theorem sniffed_type_never_json :
    (∀ sample : List Byte, detectContentType sample ≠ "application/json") ∧
    detectContentType (sampleOf (asciiBytes "name alice 12345")) =
      "application/octet-stream" := by
  constructor
  · intro sample hj
    have hm := detectContentType_mem sample
    rw [hj] at hm
    exact absurd hm (by decide)
  · rfl

/-- Witness for `sniffed_type_never_json` at the scenario's byte sample. -/
theorem sniffed_type_never_json_witness :
    detectContentType (sampleOf (asciiBytes "name alice 12345")) ≠ "application/json" :=
  sniffed_type_never_json.1 (sampleOf (asciiBytes "name alice 12345"))

/-- C3: indexing the directory holding exactly `user1.json` (16 bytes of
plain ASCII text) and `user2.json` (17 bytes) yields exactly the two
records, in traversal order, both typed with the generic binary fallback
`application/octet-stream`; and searching the persisted table for "json"
returns both rows, in traversal order. -/
theorem two_json_files_scenario :
    BuildIndex "testdata" testdataDir = .ok sampleRecords ∧
    sampleRecords.length = 2 ∧
    (∀ r ∈ sampleRecords, r.«Type» = "application/octet-stream") ∧
    indexTable sampleRecords = sampleTable ∧
    search sampleTable "json" = .matches sampleRows := by
  refine ⟨rfl, rfl, by decide, by decide, ?_⟩
  rw [search, csvReadAll_sampleTable]
  decide

mutual

theorem specFiles_length (path : String) (e : FSEntry) :
    (specFiles path e).length = countNonExcluded e := by
  cases e with
  | file name content openOk =>
    rw [specFiles, countNonExcluded]
    split
    · simp
    · simp
  | dir name entries listOk =>
    rw [specFiles, countNonExcluded]
    split
    · simp
    · exact specFilesList_length path entries

theorem specFilesList_length (parent : String) (es : List FSEntry) :
    (specFilesList parent es).length = countNonExcludedList es := by
  cases es with
  | nil => rfl
  | cons e rest =>
    rw [specFilesList, countNonExcludedList, List.length_append,
      specFiles_length (parent ++ "/" ++ e.name) e, specFilesList_length parent rest]

end

theorem not_mem_of_contains_false {c : Char} {cs : List Char}
    (h : cs.contains c = false) : c ∉ cs := by
  simp only [List.contains, List.elem_eq_mem, decide_eq_false_iff_not] at h
  exact h

mutual

theorem specFiles_fields {path : String} {e : FSEntry} (hp : '\n' ∉ path.data)
    (hn : namesNoNL e = true) :
    ∀ r ∈ specFiles path e,
      '\n' ∉ r.Name.data ∧ '\n' ∉ r.Path.data ∧ r.«Type» ∈ ctUniverse := by
  cases e with
  | file name content openOk =>
    intro r hr
    rw [specFiles] at hr
    split at hr
    · exact absurd hr (List.not_mem_nil r)
    · rcases List.mem_singleton.mp hr with rfl
      rw [namesNoNL, Bool.not_eq_eq_eq_not, Bool.not_true] at hn
      exact ⟨not_mem_of_contains_false hn, hp, detectContentType_mem _⟩
  | dir name entries listOk =>
    intro r hr
    rw [specFiles] at hr
    split at hr
    · exact absurd hr (List.not_mem_nil r)
    · rw [namesNoNL, Bool.and_eq_true] at hn
      exact specFilesList_fields hp hn.2 r hr

theorem specFilesList_fields {parent : String} {es : List FSEntry}
    (hp : '\n' ∉ parent.data) (hn : namesNoNLList es = true) :
    ∀ r ∈ specFilesList parent es,
      '\n' ∉ r.Name.data ∧ '\n' ∉ r.Path.data ∧ r.«Type» ∈ ctUniverse := by
  cases es with
  | nil =>
    intro r hr
    exact absurd hr (List.not_mem_nil r)
  | cons e rest =>
    intro r hr
    rw [namesNoNLList, Bool.and_eq_true] at hn
    rw [specFilesList] at hr
    rcases List.mem_append.mp hr with hr | hr
    · have hpe : '\n' ∉ (parent ++ "/" ++ e.name).data := by
        intro hm
        rw [String.data_append, String.data_append] at hm
        rcases List.mem_append.mp hm with hm | hm
        · rcases List.mem_append.mp hm with hm | hm
          · exact hp hm
          · exact absurd hm (by decide)
        · cases e with
          | file name content openOk =>
            rw [show FSEntry.name (.file name content openOk) = name from rfl] at hm
            have := hn.1
            rw [namesNoNL, Bool.not_eq_eq_eq_not, Bool.not_true] at this
            exact not_mem_of_contains_false this hm
          | dir name entries listOk =>
            rw [show FSEntry.name (.dir name entries listOk) = name from rfl] at hm
            have := hn.1
            rw [namesNoNL, Bool.and_eq_true] at this
            have h1 := this.1
            rw [Bool.not_eq_eq_eq_not, Bool.not_true] at h1
            exact not_mem_of_contains_false h1 hm
      exact specFiles_fields hpe hn.1 r hr
    · exact specFilesList_fields hp hn.2 r hr

end

theorem escapeQuoted_count_nl (fd : List Char) :
    (escapeQuoted fd).count '\n' = fd.count '\n' := by
  induction fd with
  | nil => rfl
  | cons c t ih =>
    by_cases hc : c = '"'
    · subst hc
      rw [escapeQuoted_quote, List.count_cons, List.count_cons, List.count_cons, ih]
      simp
    · rw [escapeQuoted_ne t hc, List.count_cons, List.count_cons, ih]

theorem writeField_count_nl {f : String} (h : '\n' ∉ f.data) :
    (writeField f).count '\n' = 0 := by
  rw [writeField]
  split
  · rw [List.count_cons, List.count_append, escapeQuoted_count_nl,
      List.count_eq_zero.mpr h]
    simp
  · exact List.count_eq_zero.mpr h

theorem writeFields_count_nl {row : List String} (h : ∀ f ∈ row, '\n' ∉ f.data) :
    (writeFields row).count '\n' = 0 := by
  induction row with
  | nil => rfl
  | cons f t ih =>
    rcases t with _ | ⟨f2, t2⟩
    · exact writeField_count_nl (h f (List.mem_cons_self f []))
    · rw [show writeFields (f :: f2 :: t2) = writeField f ++ ',' :: writeFields (f2 :: t2)
        from rfl]
      rw [List.count_append, List.count_cons,
        writeField_count_nl (h f (List.mem_cons_self f (f2 :: t2))),
        ih fun g hg => h g (List.mem_cons_of_mem f hg)]
      simp

theorem csvWrite_count_nl {rows : List (List String)}
    (h : ∀ row ∈ rows, ∀ f ∈ row, '\n' ∉ f.data) :
    (csvWrite rows).count '\n' = rows.length := by
  induction rows with
  | nil => rfl
  | cons row rt ih =>
    rw [show csvWrite (row :: rt) = writeRecord row ++ csvWrite rt from rfl]
    rw [List.count_append, writeRecord, List.count_append,
      writeFields_count_nl (h row (List.mem_cons_self row rt)),
      ih fun r hr => h r (List.mem_cons_of_mem row hr)]
    simp [Nat.add_comm]

/-- C9 counterexample: a directory holding a single one-byte file whose
name contains a newline.  BuildIndex succeeds with N = 1 record, but the
persisted table has 4 physical lines, not N + 1 = 2: the quoted name and
the quoted path each span two lines. -/
theorem table_lines_counterexample :
    BuildIndex "d" (.dir "d" [.file "a\nb" [0x61] true] true) =
      .ok [⟨"a\nb", 1, "application/octet-stream", "d/a\nb"⟩] ∧
    countNonExcluded (.dir "d" [.file "a\nb" [0x61] true] true) = 1 ∧
    lineCount (indexTable [⟨"a\nb", 1, "application/octet-stream", "d/a\nb"⟩]) = 4 ∧
    (4 : Nat) ≠ 1 + 1 := by
  refine ⟨rfl, by decide, by decide, by decide⟩

/-- C9 (amended): for every directory on which the traversal succeeds (in
particular, no non-excluded file is empty or unreadable — see C1) and
whose entry names and root path contain no newline character, BuildIndex
produces exactly N records, where N is the number of non-excluded files,
and the persisted table has exactly N + 1 newline-terminated lines: the
header plus one line per record. -/
theorem record_count_and_lines (rootPath : String) (root : FSEntry)
    (rs : List FileInfo) (hw : walkEntry rootPath root = .ok rs)
    (hp : '\n' ∉ rootPath.data) (hn : namesNoNL root = true) :
    rs.length = countNonExcluded root ∧
    lineCount (indexTable rs) = countNonExcluded root + 1 := by
  have hspec := walkEntry_ok_spec hw
  subst hspec
  refine ⟨specFiles_length rootPath root, ?_⟩
  rw [lineCount, indexTable]
  rw [show (String.mk (csvWrite (headerRow ::
    (specFiles rootPath root).map recordRow))).data =
    csvWrite (headerRow :: (specFiles rootPath root).map recordRow) from rfl]
  rw [csvWrite_count_nl ?_]
  · rw [List.length_cons, List.length_map, specFiles_length]
  · intro row hrow f hf
    rcases List.mem_cons.mp hrow with rfl | hrow
    · simp only [headerRow, List.mem_cons, List.not_mem_nil, or_false] at hf
      rcases hf with rfl | rfl | rfl | rfl <;> decide
    · rcases List.mem_map.mp hrow with ⟨fi, hfi, rfl⟩
      obtain ⟨h1, h2, h3⟩ := specFiles_fields hp hn fi hfi
      simp only [recordRow, List.mem_cons, List.not_mem_nil, or_false] at hf
      rcases hf with rfl | rfl | rfl | rfl
      · exact h1
      · exact formatNat_no_newline fi.Size
      · intro hm
        have : ∀ ct ∈ ctUniverse, '\n' ∉ ct.data := by decide
        exact this fi.«Type» h3 hm
      · exact h2

/-- Witness for `record_count_and_lines` at the two-file scenario. -/
theorem record_count_and_lines_witness :
    sampleRecords.length = countNonExcluded testdataDir ∧
    lineCount (indexTable sampleRecords) = countNonExcluded testdataDir + 1 :=
  record_count_and_lines "testdata" testdataDir sampleRecords rfl (by decide) (by decide)

end Indexer
